import Mathlib

/-!
Shallow embedding of noWorkflow's trial-graph summarization engine
(`capture/noworkflow/now/models/graphs/trial_graph.py`).

Python dicts are modelled as insertion-ordered association lists, the
`defaultdict` read-default behaviour by lookups with a default value.
Fallible Python operations (referencing the undefined `last`, popping an
empty stack, `next(iter(...))` on an empty trial-id list, attribute access
on `None`) are modelled by `Option`: `none` is an uncaught runtime error.
The mutable object graph (nodes referenced from `self.nodes`, from parent
`children` lists, from `self.matchTbl` and from the stack) is modelled by
storing every node once in `BState.nodes` and using its list position as
the object reference everywhere else.
-/

set_option autoImplicit false
set_option synthInstance.maxSize 1024

namespace TrialGraph

/-- Ordered association-list lookup (Python `dict.get(k)`). -/
def alistFind? {α β : Type} [DecidableEq α] : List (α × β) → α → Option β
  | [], _ => none
  | (k', v) :: rest, k => if k' = k then some v else alistFind? rest k

/-- Lookup with a default value (Python `defaultdict` read). -/
def alistGetD {α β : Type} [DecidableEq α] (l : List (α × β)) (k : α) (d : β) : β :=
  (alistFind? l k).getD d

/-- Ordered association-list write: update an existing key in place, append a
new key at the end — Python dict insertion-order semantics. -/
def alistSet {α β : Type} [DecidableEq α] : List (α × β) → α → β → List (α × β)
  | [], k, v => [(k, v)]
  | (k', v') :: rest, k, v =>
    if k' = k then (k', v) :: rest else (k', v') :: alistSet rest k v

/-- Read-modify-write with a `defaultdict` default value. -/
def alistUpd {α β : Type} [DecidableEq α] (l : List (α × β)) (k : α) (d : β)
    (f : β → β) : List (α × β) :=
  alistSet l k (f (alistGetD l k d))

/-- Per-trial edge counts: the innermost `defaultdict(int)` level. -/
abbrev TrialCounts := List (Nat × Nat)

/-- `type -> trial -> count` level of the edge accumulator. -/
abbrev TypeMap := List (String × TrialCounts)

/-- `target -> type -> trial -> count` level of the edge accumulator. -/
abbrev TargetMap := List (Nat × TypeMap)

/-- The four-level nested-defaultdict edge accumulator
`self.edges[source][target][type][trial] : int`. -/
abbrev EdgeMap := List (Nat × TargetMap)

/-- `self.edges[source][target][type_][trial_id] += count`. -/
def bump4 (e : EdgeMap) (s t : Nat) (ty : String) (tr : Nat) (c : Nat) : EdgeMap :=
  alistUpd e s [] (fun tm =>
    alistUpd tm t [] (fun ym =>
      alistUpd ym ty [] (fun tc =>
        alistUpd tc tr 0 (fun n => n + c))))

/-- Lookup of one `(source, target, type)` triple's per-trial counts. -/
def edgeEntry (e : EdgeMap) (s t : Nat) (ty : String) : Option TrialCounts := do
  let tm ← alistFind? e s
  let ym ← alistFind? tm t
  alistFind? ym ty

/-- One activation record of the input preorder: `id`, `name`, `line`,
`caller_id`, `trial_id`, `duration` (the attributes the engine reads). -/
structure Activation where
  id : Nat
  name : String
  line : Nat
  caller_id : Nat
  trial_id : Nat
  duration : Nat
deriving DecidableEq

/-- A graph node (`Node = DotDict` in the source), with the fields created by
`Summarization.insert_node` plus the `repr` field that
`NoMatchSummarization` adds.  `children` holds references to child nodes,
modelled by their positions in `BState.nodes`. -/
structure GNode where
  index : Nat
  parent_index : Int
  name : String
  caller_id : Nat
  children : List Nat
  activations : List (Nat × List Nat)
  duration : List (Nat × Nat)
  full_tooltip : Bool
  tooltip : List (Nat × String)
  children_index : Int
  trial_ids : List Nat
  repr : String
deriving DecidableEq

/-- The mutable fields of a `Summarization` object: `nid`, `root`, `stack`,
`nodes`, `matchTbl`, `edges`.  `κ` is the type of the strategy's match key. -/
structure BState (κ : Type) where
  nid : Nat
  root : Option Nat
  stack : List Nat
  nodes : List GNode
  matchTbl : List (Int × List (κ × Nat))
  edges : EdgeMap

instance instDecEqBState {κ : Type} [DecidableEq κ] : DecidableEq (BState κ) :=
  fun a b =>
    decidable_of_iff
      (a.nid = b.nid ∧ a.root = b.root ∧ a.stack = b.stack ∧ a.nodes = b.nodes ∧
        a.matchTbl = b.matchTbl ∧ a.edges = b.edges)
      (by cases a; cases b; simp)

/-- `Summarization.__init__` state before any record is consumed. -/
def initState {κ : Type} : BState κ := ⟨0, none, [], [], [], []⟩

/-- Python list indexing including the negative-index convention
(`lst[-1]` is the last element); out of range is an `IndexError`. -/
def pyIdx (len : Nat) (i : Int) : Option Nat :=
  if 0 ≤ i then
    if i.toNat < len then some i.toNat else none
  else
    if (-i).toNat ≤ len then some (len - (-i).toNat) else none

/-- A matching strategy with a pure match key (`LineNameSummarization` and
`StructureSummarization`): the attributes read off an "activation" `α` by the
template algorithm, the `merge` hook and the `calculate_match` hook. -/
structure Strat (α : Type) (κ : Type) where
  aname : α → String
  acid : α → Nat
  merge : GNode → α → GNode
  cmatch : α → κ

variable {α κ : Type}

/-- The fresh `Node(...)` dict literal built at the top of
`Summarization.insert_node`. -/
def node0Of (S : Strat α κ) (nid : Nat) (a : α) : GNode :=
  { index := nid
    parent_index := -1
    name := S.aname a
    caller_id := S.acid a
    children := []
    activations := []
    duration := []
    full_tooltip := false
    tooltip := []
    children_index := -1
    trial_ids := []
    repr := "" }

/-- `Summarization.insert_node`: build the node, `merge` the activation into
it, bump `nid`, link it under `parent` (recording `children_index`, appending
to the parent's `children` and registering the match key), and append it to
`self.nodes`.  Returns the new node's reference (its position). -/
def insert_node [DecidableEq κ] (S : Strat α κ) (st : BState κ) (a : α)
    (parent : Option Nat) (m? : Option κ) : Option (BState κ × Nat) :=
  let node0 : GNode := node0Of S st.nid a
  let node1 := S.merge node0 a
  let st1 : BState κ := { st with nid := st.nid + 1 }
  match parent with
  | none => some ({ st1 with nodes := st1.nodes ++ [node1] }, st1.nodes.length)
  | some p =>
    match st1.nodes.get? p with
    | none => none
    | some pn =>
      let idx := st1.nodes.length
      let node2 := { node1 with
        parent_index := (pn.index : Int)
        children_index := (pn.children.length : Int) }
      let pn' := { pn with children := pn.children ++ [idx] }
      let matchTbl' :=
        match m? with
        | some m => alistUpd st1.matchTbl (pn.index : Int) [] (fun tbl => alistSet tbl m idx)
        | none => st1.matchTbl
      some ({ st1 with nodes := (st1.nodes.set p pn') ++ [node2], matchTbl := matchTbl' }, idx)

/-- `Summarization.add_edge`: pick the trial key from the target's
`trial_ids` (`0` when more than one trial contributed, otherwise the unique
trial id; `next(iter(ids))` on an empty list is an error), then bump the
four-level accumulator. -/
def add_edge [DecidableEq κ] (st : BState κ) (source target : Nat) (ty : String)
    (count : Nat) : Option (BState κ) :=
  match st.nodes.get? source, st.nodes.get? target with
  | some src, some tgt =>
    let ids := tgt.trial_ids
    if ids.length > 1 then
      some { st with edges := bump4 st.edges src.index tgt.index ty 0 count }
    else
      match ids.head? with
      | none => none
      | some tid => some { st with edges := bump4 st.edges src.index tgt.index ty tid count }
  | _, _ => none

/-- `Summarization.insert_first`: create the root node and the `initial`
self-loop edge. -/
def insert_first [DecidableEq κ] (S : Strat α κ) (st : BState κ) (a : α) :
    Option (BState κ × Nat) := do
  let (st1, idx) ← insert_node S st a none none
  let st2 : BState κ := { st1 with root := some idx }
  let st3 ← add_edge st2 idx idx "initial" 1
  some (st3, idx)

/-- `Summarization.insert_call`: push `last`, compute the match key, create
the child node, emit a `call` edge. -/
def insert_call [DecidableEq κ] (S : Strat α κ) (st : BState κ) (a : α)
    (last : Nat) : Option (BState κ × Nat) := do
  let st1 : BState κ := { st with stack := last :: st.stack }
  let m := S.cmatch a
  let (st2, idx) ← insert_node S st1 a (some last) (some m)
  let st3 ← add_edge st2 last idx "call" 1
  some (st3, idx)

/-- `Summarization.insert_return`: pop the stack (empty pop is an
`IndexError`), emit a `return` edge from `last` to the popped node. -/
def insert_return [DecidableEq κ] (st : BState κ) (last : Nat) :
    Option (BState κ × Nat) :=
  match st.stack with
  | [] => none
  | temp :: rest => do
    let st1 ← add_edge { st with stack := rest } last temp "return" 1
    some (st1, temp)

/-- `Summarization.insert_sequence`: look the match key up in the table of
`last`'s parent; merge into the found sibling or create a new one under
`self.nodes[last.parent_index]` (Python indexing), then emit a `sequence`
edge. -/
def insert_sequence [DecidableEq κ] (S : Strat α κ) (st : BState κ) (a : α)
    (last : Nat) : Option (BState κ × Nat) := do
  let m := S.cmatch a
  let ln ← st.nodes.get? last
  let tbl := alistGetD st.matchTbl ln.parent_index []
  match alistFind? tbl m with
  | none => do
    let p ← pyIdx st.nodes.length ln.parent_index
    let (st1, idx) ← insert_node S st a (some p) (some m)
    let st2 ← add_edge st1 last idx "sequence" 1
    some (st2, idx)
  | some ni => do
    let n ← st.nodes.get? ni
    let st1 : BState κ := { st with nodes := st.nodes.set ni (S.merge n a) }
    let st2 ← add_edge st1 last ni "sequence" 1
    some (st2, ni)

/-- The `while call.caller_id < last.caller_id` pop loop of
`Summarization.__call__`; the fuel is `stack.length + 1` at the call site,
which the loop (popping one element per iteration) can never exhaust. -/
def popLoop [DecidableEq κ] : Nat → Nat → BState κ → Nat → Option (BState κ × Nat)
  | 0, _, _, _ => none
  | fuel + 1, cid, st, last =>
    match st.nodes.get? last with
    | none => none
    | some ln =>
      if cid < ln.caller_id then
        match insert_return st last with
        | none => none
        | some (st1, last1) => popLoop fuel cid st1 last1
      else some (st, last)

/-- The end-of-input `while self.stack` drain loop of
`Summarization.__call__`. -/
def drainLoop [DecidableEq κ] : Nat → BState κ → Nat → Option (BState κ × Nat)
  | 0, _, _ => none
  | fuel + 1, st, last =>
    match st.stack with
    | [] => some (st, last)
    | _ :: _ =>
      match insert_return st last with
      | none => none
      | some (st1, last1) => drainLoop fuel st1 last1

/-- One iteration of the `for call in preorder` loop of
`Summarization.__call__`.  `last?` is `none` while the Python local `last`
is still undefined (reading it then is a `NameError`). -/
def stepRecord [DecidableEq κ] (S : Strat α κ) (st : BState κ) (last? : Option Nat)
    (a : α) : Option (BState κ × Option Nat) :=
  if S.acid a = 0 then do
    let (st1, l) ← insert_first S st a
    some (st1, some l)
  else
    match last? with
    | none => none
    | some last => do
      let ln ← st.nodes.get? last
      if ln.caller_id < S.acid a then do
        let (st1, l) ← insert_call S st a last
        some (st1, some l)
      else do
        let (st1, last1) ← popLoop (st.stack.length + 1) (S.acid a) st last
        let ln1 ← st1.nodes.get? last1
        if S.acid a = ln1.caller_id then do
          let (st2, l) ← insert_sequence S st1 a last1
          some (st2, some l)
        else some (st1, some last1)

/-- The `for` loop of `Summarization.__call__` over the whole preorder. -/
def runLoop [DecidableEq κ] (S : Strat α κ) :
    BState κ → Option Nat → List α → Option (BState κ × Option Nat)
  | st, last?, [] => some (st, last?)
  | st, last?, a :: rest => do
    let (st1, l1) ← stepRecord S st last? a
    runLoop S st1 l1 rest

/-- `Summarization.__call__` for the pure-match-key strategies: the record
loop followed by the final stack drain. -/
def callSummBase [DecidableEq κ] (S : Strat α κ) (pre : List α) : Option (BState κ) := do
  let (st, last?) ← runLoop S initState none pre
  match st.stack with
  | [] => some st
  | _ :: _ =>
    match last? with
    | none => none
    | some last => do
      let (st1, _) ← drainLoop (st.stack.length + 1) st last
      some st1

/-- `LineNameSummarization.merge`: record the trial id, the activation id,
the summed duration and the tooltip text. -/
def lnMerge (node : GNode) (a : Activation) : GNode :=
  { node with
    trial_ids :=
      if a.trial_id ∈ node.trial_ids then node.trial_ids
      else node.trial_ids ++ [a.trial_id]
    activations := alistUpd node.activations a.trial_id [] (fun l => l ++ [a.id])
    duration := alistUpd node.duration a.trial_id 0 (fun d => d + a.duration)
    tooltip := alistUpd node.tooltip a.trial_id "" (fun s =>
      s ++ ("T" ++ toString a.trial_id ++ " - " ++ toString a.id ++
        "<br>Line " ++ toString a.line ++ "<br>")) }

/-- The `LineNameSummarization` strategy: match key `(line, name)`. -/
def lnStrat : Strat Activation (Nat × String) :=
  { aname := fun a => a.name
    acid := fun a => a.caller_id
    merge := lnMerge
    cmatch := fun a => (a.line, a.name) }

/-- `LineNameSummarization(preorder)`. -/
def lnCall (pre : List Activation) : Option (BState (Nat × String)) :=
  callSummBase lnStrat pre

/-- `StructureSummarization.merge`: fold the per-trial aggregates of the
merged-in node (its "activation" is a `NoMatchSummarization` node) into the
existing node. -/
def structMerge (node : GNode) (a : GNode) : GNode :=
  a.trial_ids.foldl
    (fun n t =>
      { n with
        activations := alistUpd n.activations t [] (fun l => l ++ alistGetD a.activations t [])
        duration := alistUpd n.duration t 0 (fun d => d + alistGetD a.duration t 0)
        tooltip := alistUpd n.tooltip t "" (fun s => s ++ (alistGetD a.tooltip t "" ++ "<br>"))
        trial_ids := if t ∈ n.trial_ids then n.trial_ids else n.trial_ids ++ [t] })
    node

/-- The `StructureSummarization` strategy: consumes `NoMatchSummarization`
nodes, match key `(node.repr,)`. -/
def structStrat : Strat GNode String :=
  { aname := fun n => n.name
    acid := fun n => n.caller_id
    merge := structMerge
    cmatch := fun n => n.repr }

/-- State of a `NoMatchSummarization`: the base state plus the strictly
increasing `match_id` counter. -/
structure NMState where
  s : BState Nat
  match_id : Nat
deriving DecidableEq

/-- A `Strat` view of `NoMatchSummarization` for the parts that do not go
through `calculate_match` (its `merge` is inherited from
`LineNameSummarization`; the pure `cmatch` field is never consulted because
every caller passes the counter value explicitly). -/
def nmStratBase : Strat Activation Nat :=
  { aname := fun a => a.name
    acid := fun a => a.caller_id
    merge := lnMerge
    cmatch := fun _ => 0 }

/-- `NoMatchSummarization.insert_node`: the base insertion followed by
`node.repr = '{line}-{name}'`. -/
def nm_insert_node (st : BState Nat) (a : Activation) (parent : Option Nat)
    (m? : Option Nat) : Option (BState Nat × Nat) := do
  let (st1, idx) ← insert_node nmStratBase st a parent m?
  let n ← st1.nodes.get? idx
  some ({ st1 with nodes := st1.nodes.set idx { n with repr := toString a.line ++ "-" ++ a.name } }, idx)

/-- `Summarization.insert_first` as run by a `NoMatchSummarization`
(dispatching to its `insert_node`). -/
def nm_insert_first (st : NMState) (a : Activation) : Option (NMState × Nat) := do
  let (st1, idx) ← nm_insert_node st.s a none none
  let st2 : BState Nat := { st1 with root := some idx }
  let st3 ← add_edge st2 idx idx "initial" 1
  some (⟨st3, st.match_id⟩, idx)

/-- `NoMatchSummarization.insert_call`: append `"("` to the caller's repr,
then the base `insert_call` with the incremented counter as match key. -/
def nm_insert_call (st : NMState) (a : Activation) (last : Nat) :
    Option (NMState × Nat) := do
  let ln ← st.s.nodes.get? last
  let s0 : BState Nat := { st.s with nodes := st.s.nodes.set last { ln with repr := ln.repr ++ "(" } }
  let s1 : BState Nat := { s0 with stack := last :: s0.stack }
  let mid := st.match_id + 1
  let (s2, idx) ← nm_insert_node s1 a (some last) (some mid)
  let s3 ← add_edge s2 last idx "call" 1
  some (⟨s3, mid⟩, idx)

/-- `NoMatchSummarization.insert_return`: the base pop-and-`return`-edge,
then append the returned child's repr plus `")"` to the parent's repr. -/
def nm_insert_return (st : NMState) (last : Nat) : Option (NMState × Nat) :=
  match st.s.stack with
  | [] => none
  | temp :: rest => do
    let s1 ← add_edge { st.s with stack := rest } last temp "return" 1
    let pn ← s1.nodes.get? temp
    let lnn ← s1.nodes.get? last
    some (⟨{ s1 with nodes := s1.nodes.set temp { pn with repr := pn.repr ++ lnn.repr ++ ")" } }, st.match_id⟩, temp)

/-- `NoMatchSummarization.insert_sequence`: when `last` has no children,
append its repr plus `","` to `self.nodes[last.parent_index]`'s repr; then
the base `insert_sequence` with the incremented counter as match key. -/
def nm_insert_sequence (st : NMState) (a : Activation) (last : Nat) :
    Option (NMState × Nat) := do
  let ln ← st.s.nodes.get? last
  let s0 ←
    if ln.children.isEmpty then do
      let p ← pyIdx st.s.nodes.length ln.parent_index
      let pn ← st.s.nodes.get? p
      pure { st.s with nodes := st.s.nodes.set p { pn with repr := pn.repr ++ ln.repr ++ "," } }
    else pure st.s
  let mid := st.match_id + 1
  let ln2 ← s0.nodes.get? last
  let tbl := alistGetD s0.matchTbl ln2.parent_index []
  match alistFind? tbl mid with
  | none => do
    let p2 ← pyIdx s0.nodes.length ln2.parent_index
    let (s1, idx) ← nm_insert_node s0 a (some p2) (some mid)
    let s2 ← add_edge s1 last idx "sequence" 1
    some (⟨s2, mid⟩, idx)
  | some ni => do
    let n ← s0.nodes.get? ni
    let s1 : BState Nat := { s0 with nodes := s0.nodes.set ni (lnMerge n a) }
    let s2 ← add_edge s1 last ni "sequence" 1
    some (⟨s2, mid⟩, ni)

/-- The pop loop of `Summarization.__call__` as run by a
`NoMatchSummarization` (dispatching to its `insert_return`). -/
def nmPopLoop : Nat → Nat → NMState → Nat → Option (NMState × Nat)
  | 0, _, _, _ => none
  | fuel + 1, cid, st, last =>
    match st.s.nodes.get? last with
    | none => none
    | some ln =>
      if cid < ln.caller_id then
        match nm_insert_return st last with
        | none => none
        | some (st1, last1) => nmPopLoop fuel cid st1 last1
      else some (st, last)

/-- The end-of-input drain loop as run by a `NoMatchSummarization`. -/
def nmDrainLoop : Nat → NMState → Nat → Option (NMState × Nat)
  | 0, _, _ => none
  | fuel + 1, st, last =>
    match st.s.stack with
    | [] => some (st, last)
    | _ :: _ =>
      match nm_insert_return st last with
      | none => none
      | some (st1, last1) => nmDrainLoop fuel st1 last1

/-- One record of `Summarization.__call__` as run by a
`NoMatchSummarization`. -/
def nmStep (st : NMState) (last? : Option Nat) (a : Activation) :
    Option (NMState × Option Nat) :=
  if a.caller_id = 0 then do
    let (st1, l) ← nm_insert_first st a
    some (st1, some l)
  else
    match last? with
    | none => none
    | some last => do
      let ln ← st.s.nodes.get? last
      if ln.caller_id < a.caller_id then do
        let (st1, l) ← nm_insert_call st a last
        some (st1, some l)
      else do
        let (st1, last1) ← nmPopLoop (st.s.stack.length + 1) a.caller_id st last
        let ln1 ← st1.s.nodes.get? last1
        if a.caller_id = ln1.caller_id then do
          let (st2, l) ← nm_insert_sequence st1 a last1
          some (st2, some l)
        else some (st1, some last1)

/-- The record loop as run by a `NoMatchSummarization`. -/
def nmRunLoop : NMState → Option Nat → List Activation → Option (NMState × Option Nat)
  | st, last?, [] => some (st, last?)
  | st, last?, a :: rest => do
    let (st1, l1) ← nmStep st last? a
    nmRunLoop st1 l1 rest

/-- `NoMatchSummarization(preorder)`: `match_id = 0`, the record loop, the
final drain. -/
def nmCall (pre : List Activation) : Option NMState := do
  let (st, last?) ← nmRunLoop ⟨initState, 0⟩ none pre
  match st.s.stack with
  | [] => some st
  | _ :: _ =>
    match last? with
    | none => none
    | some last => do
      let (st1, _) ← nmDrainLoop (st.s.stack.length + 1) st last
      some st1

/-- `StructureSummarization.__call__`: run `NoMatchSummarization` over the
preorder, then the base traversal (with the repr match key) over the
resulting node list. -/
def structRun (pre : List Activation) : Option (BState String) := do
  let nm ← nmCall pre
  callSummBase structStrat nm.s.nodes

/-- Fuel bound for the `TreeSummarization` rebuild walk: on the forests the
traversal builds (each node a child of at most one earlier node) the walk
pops at most `1 + total number of child references` stack entries. -/
def treeFuel (st : BState Nat) : Nat :=
  st.nodes.length + (st.nodes.map (fun n => n.children.length)).sum + 2

/-- The `while stack` rebuild walk of `TreeSummarization.__call__`: pop a
node (popping the `None` root of an empty summarization is an
`AttributeError`), emit a `call` edge to each child counted by its sibling
position, and push the children. -/
def treeWalk : Nat → BState Nat → List (Option Nat) → Option (BState Nat)
  | 0, _, _ => none
  | fuel + 1, st, stack =>
    match stack with
    | [] => some st
    | cur? :: rest =>
      match cur? with
      | none => none
      | some cur =>
        match st.nodes.get? cur with
        | none => none
        | some cn =>
          let r := cn.children.foldl
            (fun (acc : Option (BState Nat × List (Option Nat) × Nat)) child =>
              match acc with
              | none => none
              | some (s, stk, i) =>
                match add_edge s cur child "call" i with
                | none => none
                | some s' => some (s', some child :: stk, i + 1))
            (some (st, rest, 0))
          match r with
          | none => none
          | some (st', stk', _) => treeWalk fuel st' stk'

/-- `TreeSummarization.__call__`: the `NoMatchSummarization` traversal, then
`self.edges.clear()` and the depth-first edge rebuild from `self.root`. -/
def treeRun (pre : List Activation) : Option (BState Nat) := do
  let nm ← nmCall pre
  let s0 : BState Nat := { nm.s with edges := [] }
  treeWalk (treeFuel s0) s0 [s0.root]

/-- One flattened edge of the wire-format graph: the `count` field is the
per-trial count dict of its `(source, target, type)` triple. -/
structure EdgeOut where
  count : TrialCounts
  source : Nat
  target : Nat
  type : String
deriving DecidableEq

/-- The wire-format graph emitted by `Summarization.graph`: the root node
object (or `None`), the flattened edge list, the per-trial duration extrema
and the echoed colors mapping. -/
structure GOut where
  root : Option GNode
  edges : List EdgeOut
  min_duration : List (Nat × Nat)
  max_duration : List (Nat × Nat)
  colors : List (Nat × Nat)
deriving DecidableEq

/-- Record one duration into the running per-trial minimum map
(`min(min_duration.get(trial, inf), duration)`). -/
def updMin (m : List (Nat × Nat)) (t d : Nat) : List (Nat × Nat) :=
  match alistFind? m t with
  | none => alistSet m t d
  | some cur => alistSet m t (min cur d)

/-- Record one duration into the running per-trial maximum map. -/
def updMax (m : List (Nat × Nat)) (t d : Nat) : List (Nat × Nat) :=
  match alistFind? m t with
  | none => alistSet m t d
  | some cur => alistSet m t (max cur d)

/-- `Summarization.graph`, modelled as a state transformer on the
summarization object: it computes the duration extrema, flattens the edge
accumulator and returns the JSON dict together with the (untouched) object
state. -/
def Summarization.graph {κ : Type} (st : BState κ) (colors : List (Nat × Nat)) :
    GOut × BState κ :=
  let mm := st.nodes.foldl
    (fun (mm : List (Nat × Nat) × List (Nat × Nat)) n =>
      n.duration.foldl (fun mm td => (updMin mm.1 td.1 td.2, updMax mm.2 td.1 td.2)) mm)
    ([], [])
  let edges := st.edges.foldl
    (fun acc sp =>
      sp.2.foldl
        (fun acc tp =>
          tp.2.foldl
            (fun acc yp => acc ++ [⟨yp.2, sp.1, tp.1, yp.1⟩])
            acc)
        acc)
    []
  (⟨st.root.bind (fun r => st.nodes.get? r), edges, mm.1, mm.2, colors⟩, st)

/-- Caller-id validity of a preorder, as the traversal engine requires it:
the pop loop run on the abstract caller-id stack. -/
def popTo (c : Nat) : List Nat → Nat → Option (List Nat × Nat)
  | stk, cur =>
    if c < cur then
      match stk with
      | [] => none
      | t :: rest => popTo c rest t
    else some (stk, cur)

/-- Caller-id validity: every record is a new root (`caller_id = 0`), a call
(greater than the current `last`), or reaches sibling equality after
popping. -/
def validFrom : List Nat → Option Nat → List Nat → Bool
  | _, _, [] => true
  | stk, last?, c :: rest =>
    if c = 0 then validFrom stk (some 0) rest
    else
      match last? with
      | none => false
      | some l =>
        if l < c then validFrom (l :: stk) (some c) rest
        else
          match popTo c stk l with
          | none => false
          | some (stk', cur) =>
            if c = cur then validFrom stk' (some c) rest else false

/-- A valid activation preorder. -/
def validPre (pre : List Activation) : Bool :=
  validFrom [] none (pre.map (fun a => a.caller_id))

/-- One node's contribution to the depth-0 duration sum of a trial. -/
def nodeDepthTerm (t : Nat) (n : GNode) : Nat :=
  if n.parent_index = -1 then alistGetD n.duration t 0 else 0

/-- Sum of one trial's durations over the depth-0 nodes (`parent_index = -1`)
of a summarization state. -/
def depthSum {κ : Type} (st : BState κ) (t : Nat) : Nat :=
  (st.nodes.map (nodeDepthTerm t)).sum

/-- Sum of the durations of the records with falsy `caller_id` belonging to
one trial. -/
def recSum (pre : List Activation) (t : Nat) : Nat :=
  (pre.map (fun a => if a.caller_id = 0 ∧ a.trial_id = t then a.duration else 0)).sum

/-- The trial id `add_edge` files an increment under, as a function of the
target node: the sentinel `0` when more than one trial contributed to the
target, otherwise the target's unique trial id. -/
def trialKey (n : GNode) : Option Nat :=
  if n.trial_ids.length > 1 then some 0 else n.trial_ids.head?

/-- The three-record scenario input of the spec: `(id=1, name=fn, line=1,
caller_id=0)`, `(id=2, name=return, line=2, caller_id=1)`,
`(id=3, name="call fn", line=4, caller_id=0)` (trial 1, durations 10/5/7). -/
def c1input : List Activation :=
  [⟨1, "fn", 1, 0, 1, 10⟩, ⟨2, "return", 2, 1, 1, 5⟩, ⟨3, "call fn", 4, 0, 1, 7⟩]

/-- A two-record input whose call never returns: the stack is still
non-empty when the input ends. -/
def c2input : List Activation :=
  [⟨1, "f", 1, 0, 1, 10⟩, ⟨2, "g", 2, 1, 1, 5⟩]

/-- A root with two childless children that differ only in their name:
identical subtree shapes, different names. -/
def c3inputA : List Activation :=
  [⟨1, "r", 0, 0, 1, 1⟩, ⟨2, "a", 1, 1, 1, 1⟩, ⟨3, "b", 1, 1, 1, 1⟩]

/-- A root with two childless children with the same line and name. -/
def c3inputB : List Activation :=
  [⟨1, "r", 0, 0, 1, 1⟩, ⟨2, "a", 1, 1, 1, 1⟩, ⟨3, "a", 1, 1, 1, 1⟩]

/-- Five records over two trials: records 2 and 4 merge into one `x` node,
records 3 and 5 merge into one `y` node, and record 5 belongs to trial 2,
so the `sequence` edge into the `y` node is filed first under trial 1 and
then under the sentinel 0. -/
def c8input : List Activation :=
  [⟨1, "r", 0, 0, 1, 1⟩, ⟨2, "x", 1, 1, 1, 1⟩, ⟨3, "y", 2, 1, 1, 1⟩,
   ⟨4, "x", 1, 1, 1, 1⟩, ⟨5, "y", 2, 1, 2, 1⟩]

/-- A two-root input: record 3 starts a new root, so the Tree rebuild walk
(which starts from the final root only) never visits node 0. -/
def c10input : List Activation :=
  [⟨1, "f", 1, 0, 1, 10⟩, ⟨2, "g", 2, 1, 1, 5⟩, ⟨3, "h", 3, 0, 1, 7⟩]

/-- A single-root input: a root with two children. -/
def c10ok : List Activation :=
  [⟨1, "f", 1, 0, 1, 10⟩, ⟨2, "g", 2, 1, 1, 5⟩, ⟨3, "h", 3, 1, 1, 7⟩]

/-- A concrete source node used to instantiate the `add_edge` facts. -/
def w8src : GNode :=
  ⟨0, -1, "s", 0, [1], [], [], false, [], -1, [7], ""⟩

/-- A concrete single-trial target node used to instantiate the `add_edge`
facts. -/
def w8tgt : GNode :=
  ⟨1, 0, "t", 1, [], [], [], false, [], 0, [7], ""⟩

/-- A concrete two-element state used to instantiate the `add_edge` facts. -/
def w8st : BState (Nat × String) :=
  ⟨2, some 0, [], [w8src, w8tgt], [], []⟩

/-- Every node registered in a match table was created under a parent, so
it is not a depth-0 node (and its reference is valid). -/
def MatchParentInv {κ : Type} (st : BState κ) : Prop :=
  ∀ pr ∈ st.matchTbl, ∀ kv ∈ pr.2,
    ∃ n, st.nodes.get? kv.2 = some n ∧ n.parent_index ≠ -1

/-- Structural invariants of the `NoMatchSummarization` traversal state:
`nid` counts the nodes, each node's `index` field is its position, every
node has a non-empty trial set, a node with truthy caller_id has a valid
parent reference, children references are strictly increasing and in range,
and every registered match key is at most the current counter value. -/
structure NInvB (s : BState Nat) (mid : Nat) : Prop where
  nid_eq : s.nid = s.nodes.length
  idx_inv : ∀ i n, s.nodes.get? i = some n → n.index = i
  trial_ne : ∀ n ∈ s.nodes, n.trial_ids ≠ []
  parent_ok : ∀ i n, s.nodes.get? i = some n → n.caller_id ≠ 0 →
    ∃ p : Nat, n.parent_index = (p : Int) ∧ p < i
  child_lt : ∀ n ∈ s.nodes, ∀ c ∈ n.children, c < s.nodes.length
  child_sorted : ∀ n ∈ s.nodes, List.Pairwise (fun x y => x < y) n.children
  mkeys : ∀ pr ∈ s.matchTbl, ∀ kv ∈ pr.2, kv.1 ≤ mid

/-- The stack nodes exist and their caller_ids spell out the abstract
validity stack. -/
def StackCorr (s : BState Nat) (vstk : List Nat) : Prop :=
  List.Forall₂ (fun x c => ∃ n, s.nodes.get? x = some n ∧ n.caller_id = c) s.stack vstk

/-- The `last` cursor exists exactly when the abstract `last` caller_id
does, and then points at a node with that caller_id. -/
def LastCorr (s : BState Nat) (last? : Option Nat) (vlast : Option Nat) : Prop :=
  (last? = none ∧ vlast = none) ∨
  (∃ l c n, last? = some l ∧ vlast = some c ∧ s.nodes.get? l = some n ∧ n.caller_id = c)

end TrialGraph

namespace TrialGraph

/-- The drain loop only ever stops on an empty stack. -/
theorem drainLoop_stack_nil {κ : Type} [DecidableEq κ] :
    ∀ (fuel : Nat) (st : BState κ) (last : Nat) (st' : BState κ) (l' : Nat),
      drainLoop fuel st last = some (st', l') → st'.stack = [] := by
  intro fuel
  induction fuel with
  | zero => intro st last st' l' h; exact absurd h (by simp [drainLoop])
  | succ fuel ih =>
    intro st last st' l' h
    rw [drainLoop] at h
    cases hs : st.stack with
    | nil =>
      rw [hs] at h
      cases h
      exact hs
    | cons t rest =>
      rw [hs] at h
      cases hr : insert_return st last with
      | none => rw [hr] at h; cases h
      | some p =>
        rw [hr] at h
        exact ih p.1 p.2 st' l' h

end TrialGraph

namespace TrialGraph

/-- C1 (counterexample): on the spec's three-record scenario the third
record's falsy caller_id (0) is handled by `insert_first`, not as a sibling
sequence: the final root is node 2 (record id 3, name "call fn"), not the
node of record id 1; no `sequence` edge `node(id1) -> node(id3)` is emitted,
and no `return` edge `node(id2) -> node(id1)` is emitted. -/
theorem C1_cex :
    ((lnCall c1input).map fun st => st.root) = some (some 2) ∧
    ((lnCall c1input).map fun st => st.nodes.map fun n => n.name) =
      some ["fn", "return", "call fn"] ∧
    ((lnCall c1input).map fun st => edgeEntry st.edges 0 2 "sequence") = some none ∧
    ((lnCall c1input).map fun st => edgeEntry st.edges 1 0 "return") = some none := by
  refine ⟨?_, ?_, ?_, ?_⟩ <;> decide

/-- C1 (amended): the traversal produces 3 nodes, but because record 3's
caller_id 0 is falsy it starts a new root: root = node of record id 3;
the edges are `initial` node0->node0, `call` node0->node1, `initial`
node2->node2 and (from the end-of-input drain) `return` node2->node0 —
four edges in all, with no `sequence` edge. -/
theorem C1_amended :
    ((lnCall c1input).map fun st => st.nodes.length) = some 3 ∧
    ((lnCall c1input).map fun st => st.root) = some (some 2) ∧
    ((lnCall c1input).map fun st => edgeEntry st.edges 0 0 "initial") = some (some [(1, 1)]) ∧
    ((lnCall c1input).map fun st => edgeEntry st.edges 0 1 "call") = some (some [(1, 1)]) ∧
    ((lnCall c1input).map fun st => edgeEntry st.edges 2 2 "initial") = some (some [(1, 1)]) ∧
    ((lnCall c1input).map fun st => edgeEntry st.edges 2 0 "return") = some (some [(1, 1)]) ∧
    ((lnCall c1input).map fun st => (Summarization.graph st []).1.edges.length) = some 4 := by
  refine ⟨?_, ?_, ?_, ?_, ?_, ?_, ?_⟩ <;> decide

/-- C2 (counterexample): on a two-record input whose stack is still
non-empty when the input ends, the traversal does not report any error: the
drain loop silently emits a `return` edge, the final stack is empty, and a
graph state is produced as if the input were well-formed. -/
theorem C2_cex :
    ((runLoop lnStrat initState none c2input).map fun p => p.1.stack) = some [0] ∧
    ((lnCall c2input).map fun st => st.stack) = some [] ∧
    ((lnCall c2input).map fun st => edgeEntry st.edges 1 0 "return") = some (some [(1, 1)]) ∧
    (lnCall c2input).isSome = true := by
  refine ⟨?_, ?_, ?_, ?_⟩ <;> decide

/-- C2 (amended): a leftover non-empty stack at end of input is never
reported: the final drain loop silently pops it emitting `return` edges, so
every successful traversal ends with an empty stack and a normally emitted
graph. -/
theorem C2_amended (pre : List Activation) (st : BState (Nat × String))
    (h : lnCall pre = some st) : st.stack = [] := by
  rw [lnCall, callSummBase] at h
  cases hr : runLoop lnStrat initState none pre with
  | none => rw [hr] at h; cases h
  | some p =>
    rw [hr] at h
    simp only [Option.bind_eq_bind, Option.some_bind] at h
    split at h
    · cases h
      assumption
    · split at h
      · cases h
      · rename_i last _
        cases hd : drainLoop (p.1.stack.length + 1) p.1 last with
        | none => rw [hd] at h; cases h
        | some q =>
          rw [hd] at h
          simp only [Option.bind_eq_bind, Option.some_bind] at h
          cases h
          exact drainLoop_stack_nil _ _ _ _ _ hd

/-- C2 (witness): the amended fact at the concrete two-record input. -/
theorem C2_amended_witness : ((lnCall c2input).map fun st => st.stack) = some [] := by
  cases h : lnCall c2input with
  | none => exact absurd h (by decide)
  | some st => simpa using C2_amended c2input st h

end TrialGraph

namespace TrialGraph

/-- C3 (counterexample): nodes 1 and 2 of `c3inputA` have identical subtree
shapes (both childless children of the root, same line) and differ only in
their name, yet their reprs differ ("1-a" vs "1-b") — the repr signature
depends on the concrete names — and the Structure strategy consequently
keeps them as 3 separate nodes instead of merging them. -/
theorem C3_cex :
    ((nmCall c3inputA).map fun st => st.s.nodes.map fun n => n.repr) =
      some ["0-r(1-a,1-b)", "1-a", "1-b"] ∧
    ((nmCall c3inputA).map fun st => st.s.nodes.map fun n => n.children) =
      some [[1, 2], [], []] ∧
    ((structRun c3inputA).map fun st => st.nodes.length) = some 3 := by
  refine ⟨?_, ?_, ?_⟩ <;> decide

/-- C3 (amended): the second traversal pass matches on repr equality, but
the repr encodes the line and name of every node of the subtree
(`'{0.line}-{0.name}'` plus the children's reprs), so two nodes merge
exactly when their subtrees are identical including concrete names and
lines — not independently of them: with equal names (`c3inputB`) the two
children merge into 2 nodes, with different names (`c3inputA`) they stay 3. -/
theorem C3_amended :
    (∀ n : GNode, structStrat.cmatch n = n.repr) ∧
    ((nmCall c3inputB).map fun st => st.s.nodes.map fun n => n.repr) =
      some ["0-r(1-a,1-a)", "1-a", "1-a"] ∧
    ((structRun c3inputB).map fun st => st.nodes.length) = some 2 ∧
    ((structRun c3inputA).map fun st => st.nodes.length) = some 3 := by
  refine ⟨fun n => rfl, ?_, ?_, ?_⟩ <;> decide

/-- C7: on the empty input the LineName, NoMatch and Structure traversals
succeed with the empty state (no root, no nodes, no edges) and the emitter
produces the empty graph with empty duration maps; but the Tree strategy
crashes: its rebuild walk pops the `None` root and dereferences it
(`current.children` on `None`), so `treeRun [] = none`. -/
theorem C7_empty_input :
    lnCall [] = some initState ∧
    nmCall [] = some ⟨initState, 0⟩ ∧
    structRun [] = some initState ∧
    (Summarization.graph (κ := Nat × String) initState []).1 = ⟨none, [], [], [], []⟩ ∧
    treeRun [] = none := by
  refine ⟨?_, ?_, ?_, ?_, ?_⟩ <;> decide

/-- C9: `Summarization.graph` is a pure transform: it leaves the whole
summarization state (node list, every node's fields, edge accumulator)
unchanged and returns the caller-supplied colors mapping unchanged. -/
theorem C9_graph_pure : ∀ (κ : Type) (st : BState κ) (c : List (Nat × Nat)),
    (Summarization.graph st c).2 = st ∧ (Summarization.graph st c).1.colors = c :=
  fun _ _ _ => ⟨rfl, rfl⟩

/-- C10 (counterexample): on the two-root input `c10input` node 0 has a
child, but the Tree rebuild walk starts from the final root (node 2) only,
so the rebuilt edge accumulator is empty: the `call` edge to node 0's first
child is not present at all. -/
theorem C10_cex :
    ((treeRun c10input).map fun st => st.edges) = some [] ∧
    ((treeRun c10input).map fun st => (st.nodes.get? 0).map fun n => n.children) =
      some (some [1]) := by
  refine ⟨?_, ?_⟩ <;> decide

/-- C8 (counterexample): on `c8input` the `y` node (node 2) accumulates
trials 1 and 2, and the `(1, 2, sequence)` triple has contributions from
both trials (record 3 in trial 1, record 5 in trial 2); yet it is not
emitted once under the sentinel trial id 0: its single emitted entry
carries the count map [(1, 1), (0, 1)] — one count under concrete trial 1
and one under the sentinel. -/
theorem C8_cex :
    ((lnCall c8input).map fun st => (st.nodes.get? 2).map fun n => n.trial_ids) =
      some (some [1, 2]) ∧
    ((lnCall c8input).map fun st => edgeEntry st.edges 1 2 "sequence") =
      some (some [(1, 1), (0, 1)]) ∧
    ((lnCall c8input).map fun st =>
        (Summarization.graph st []).1.edges.map fun e => (e.source, e.target, e.type, e.count)) =
      some [(0, 0, "initial", [(1, 1)]), (0, 1, "call", [(1, 1)]),
        (1, 2, "sequence", [(1, 1), (0, 1)]), (2, 1, "sequence", [(1, 1)]),
        (2, 0, "return", [(1, 1)])] := by
  refine ⟨?_, ?_, ?_⟩ <;> decide

end TrialGraph

namespace TrialGraph

variable {α κ : Type}

/-- `insert_node` appends exactly one node, at the end of the list. -/
theorem insert_node_length [DecidableEq κ] {S : Strat α κ} {st : BState κ} {a : α}
    {parent : Option Nat} {m? : Option κ} {st' : BState κ} {idx : Nat}
    (h : insert_node S st a parent m? = some (st', idx)) :
    st'.nodes.length = st.nodes.length + 1 ∧ idx = st.nodes.length := by
  rw [insert_node.eq_def] at h
  dsimp only at h
  split at h
  · simp only [Option.some.injEq, Prod.mk.injEq] at h
    obtain ⟨h1, h2⟩ := h
    exact ⟨by rw [← h1]; simp, h2.symm⟩
  · split at h
    · cases h
    · simp only [Option.some.injEq, Prod.mk.injEq] at h
      obtain ⟨h1, h2⟩ := h
      exact ⟨by rw [← h1]; simp, h2.symm⟩

/-- `add_edge` only touches the edge accumulator. -/
theorem add_edge_same [DecidableEq κ] {st : BState κ} {s t : Nat} {ty : String}
    {c : Nat} {st' : BState κ} (h : add_edge st s t ty c = some st') :
    st'.nodes = st.nodes ∧ st'.stack = st.stack ∧ st'.matchTbl = st.matchTbl ∧
      st'.root = st.root ∧ st'.nid = st.nid := by
  rw [add_edge] at h
  split at h
  · dsimp only at h
    split at h
    · cases h
      exact ⟨rfl, rfl, rfl, rfl, rfl⟩
    · split at h
      · cases h
      · cases h
        exact ⟨rfl, rfl, rfl, rfl, rfl⟩
  · cases h

/-- `insert_first` appends exactly one node. -/
theorem insert_first_length [DecidableEq κ] {S : Strat α κ} {st : BState κ} {a : α}
    {st' : BState κ} {idx : Nat} (h : insert_first S st a = some (st', idx)) :
    st'.nodes.length = st.nodes.length + 1 := by
  rw [insert_first] at h
  cases hn : insert_node S st a none none with
  | none => rw [hn] at h; cases h
  | some q =>
    rw [hn] at h
    simp only [Option.bind_eq_bind, Option.some_bind] at h
    cases he : add_edge { q.1 with root := some q.2 } q.2 q.2 "initial" 1 with
    | none => rw [he] at h; cases h
    | some st2 =>
      rw [he] at h
      cases h
      have h1 := (insert_node_length hn).1
      have h2 := (add_edge_same he).1
      simpa [h2] using h1

/-- `insert_call` appends exactly one node. -/
theorem insert_call_length [DecidableEq κ] {S : Strat α κ} {st : BState κ} {a : α}
    {last : Nat} {st' : BState κ} {idx : Nat}
    (h : insert_call S st a last = some (st', idx)) :
    st'.nodes.length = st.nodes.length + 1 := by
  rw [insert_call] at h
  cases hn : insert_node S { st with stack := last :: st.stack } a (some last) (some (S.cmatch a)) with
  | none => rw [hn] at h; cases h
  | some q =>
    rw [hn] at h
    simp only [Option.bind_eq_bind, Option.some_bind] at h
    cases he : add_edge q.1 last q.2 "call" 1 with
    | none => rw [he] at h; cases h
    | some st2 =>
      rw [he] at h
      cases h
      have h1 := (insert_node_length hn).1
      have h2 := (add_edge_same he).1
      simpa [h2] using h1

/-- `insert_return` does not change the node list. -/
theorem insert_return_nodes [DecidableEq κ] {st : BState κ} {last : Nat}
    {st' : BState κ} {l' : Nat} (h : insert_return st last = some (st', l')) :
    st'.nodes = st.nodes := by
  rw [insert_return] at h
  split at h
  · cases h
  · rename_i temp rest hs
    cases he : add_edge { st with stack := rest } last temp "return" 1 with
    | none => rw [he] at h; cases h
    | some st2 =>
      rw [he] at h
      simp only [Option.bind_eq_bind, Option.some_bind, Option.some.injEq, Prod.mk.injEq] at h
      obtain ⟨h1, _⟩ := h
      rw [← h1]
      exact (add_edge_same he).1

/-- `popLoop` does not change the node list. -/
theorem popLoop_nodes [DecidableEq κ] :
    ∀ {fuel cid : Nat} {st : BState κ} {last : Nat} {st' : BState κ} {l' : Nat},
      popLoop fuel cid st last = some (st', l') → st'.nodes = st.nodes := by
  intro fuel
  induction fuel with
  | zero => intro _ _ _ _ _ h; exact absurd h (by simp [popLoop])
  | succ fuel ih =>
    intro cid st last st' l' h
    rw [popLoop] at h
    split at h
    · cases h
    · split at h
      · split at h
        · cases h
        · rename_i hr
          rw [ih h, insert_return_nodes hr]
      · cases h
        rfl

/-- `insert_sequence` appends at most one node. -/
theorem insert_sequence_length [DecidableEq κ] {S : Strat α κ} {st : BState κ} {a : α}
    {last : Nat} {st' : BState κ} {idx : Nat}
    (h : insert_sequence S st a last = some (st', idx)) :
    st'.nodes.length ≤ st.nodes.length + 1 := by
  rw [insert_sequence] at h
  cases hl : st.nodes.get? last with
  | none => rw [hl] at h; cases h
  | some ln =>
    rw [hl] at h
    simp only [Option.bind_eq_bind, Option.some_bind] at h
    split at h
    · cases hp : pyIdx st.nodes.length ln.parent_index with
      | none => rw [hp] at h; cases h
      | some p =>
        rw [hp] at h
        simp only [Option.bind_eq_bind, Option.some_bind] at h
        cases hn : insert_node S st a (some p) (some (S.cmatch a)) with
        | none => rw [hn] at h; cases h
        | some q =>
          rw [hn] at h
          simp only [Option.bind_eq_bind, Option.some_bind] at h
          cases he : add_edge q.1 last q.2 "sequence" 1 with
          | none => rw [he] at h; cases h
          | some st2 =>
            rw [he] at h
            cases h
            have h1 := (insert_node_length hn).1
            have h2 := (add_edge_same he).1
            simp [h2, h1]
    · rename_i ni hfind
      cases hg : st.nodes.get? ni with
      | none => rw [hg] at h; cases h
      | some n =>
        rw [hg] at h
        simp only [Option.bind_eq_bind, Option.some_bind] at h
        cases he : add_edge { st with nodes := st.nodes.set ni (S.merge n a) } last ni "sequence" 1 with
        | none => rw [he] at h; cases h
        | some st2 =>
          rw [he] at h
          cases h
          have h2 := (add_edge_same he).1
          simp [h2]

/-- Each record of the traversal loop adds at most one node. -/
theorem stepRecord_length [DecidableEq κ] {S : Strat α κ} {st : BState κ}
    {last? : Option Nat} {a : α} {st' : BState κ} {l' : Option Nat}
    (h : stepRecord S st last? a = some (st', l')) :
    st'.nodes.length ≤ st.nodes.length + 1 := by
  rw [stepRecord.eq_def] at h
  split at h
  · cases hf : insert_first S st a with
    | none => rw [hf] at h; cases h
    | some q =>
      rw [hf] at h
      simp only [Option.bind_eq_bind, Option.some_bind, Option.some.injEq, Prod.mk.injEq] at h
      obtain ⟨h1, _⟩ := h
      rw [← h1]
      exact le_of_eq (insert_first_length hf)
  · split at h
    · cases h
    · rename_i last
      cases hl : st.nodes.get? last with
      | none => rw [hl] at h; cases h
      | some ln =>
        rw [hl] at h
        simp only [Option.bind_eq_bind, Option.some_bind] at h
        split at h
        · cases hc : insert_call S st a last with
          | none => rw [hc] at h; cases h
          | some q =>
            rw [hc] at h
            simp only [Option.bind_eq_bind, Option.some_bind, Option.some.injEq,
              Prod.mk.injEq] at h
            obtain ⟨h1, _⟩ := h
            rw [← h1]
            exact le_of_eq (insert_call_length hc)
        · cases hp : popLoop (st.stack.length + 1) (S.acid a) st last with
          | none => rw [hp] at h; cases h
          | some q =>
            rw [hp] at h
            simp only [Option.bind_eq_bind, Option.some_bind] at h
            cases hg : q.1.nodes.get? q.2 with
            | none => rw [hg] at h; cases h
            | some ln1 =>
              rw [hg] at h
              simp only [Option.bind_eq_bind, Option.some_bind] at h
              have hq : q.1.nodes = st.nodes := popLoop_nodes hp
              split at h
              · cases hs : insert_sequence S q.1 a q.2 with
                | none => rw [hs] at h; cases h
                | some r =>
                  rw [hs] at h
                  simp only [Option.bind_eq_bind, Option.some_bind, Option.some.injEq,
                    Prod.mk.injEq] at h
                  obtain ⟨h1, _⟩ := h
                  rw [← h1]
                  calc r.1.nodes.length ≤ q.1.nodes.length + 1 := insert_sequence_length hs
                  _ = st.nodes.length + 1 := by rw [hq]
              · simp only [Option.some.injEq, Prod.mk.injEq] at h
                obtain ⟨h1, _⟩ := h
                rw [← h1, hq]
                exact Nat.le_succ _

/-- The record loop adds at most one node per record. -/
theorem runLoop_length [DecidableEq κ] {S : Strat α κ} :
    ∀ {pre : List α} {st : BState κ} {last? : Option Nat} {st' : BState κ}
      {l' : Option Nat}, runLoop S st last? pre = some (st', l') →
      st'.nodes.length ≤ st.nodes.length + pre.length := by
  intro pre
  induction pre with
  | nil =>
    intro st last? st' l' h
    rw [runLoop] at h
    cases h
    simp
  | cons a rest ih =>
    intro st last? st' l' h
    rw [runLoop] at h
    cases hs : stepRecord S st last? a with
    | none => rw [hs] at h; cases h
    | some q =>
      rw [hs] at h
      simp only [Option.bind_eq_bind, Option.some_bind] at h
      calc st'.nodes.length ≤ q.1.nodes.length + rest.length := ih h
      _ ≤ (st.nodes.length + 1) + rest.length :=
        Nat.add_le_add_right (stepRecord_length hs) _
      _ = st.nodes.length + (a :: rest).length := by simp [Nat.add_assoc, Nat.add_comm 1]

/-- The drain loop does not change the node list. -/
theorem drainLoop_nodes [DecidableEq κ] :
    ∀ {fuel : Nat} {st : BState κ} {last : Nat} {st' : BState κ} {l' : Nat},
      drainLoop fuel st last = some (st', l') → st'.nodes = st.nodes := by
  intro fuel
  induction fuel with
  | zero => intro _ _ _ _ h; exact absurd h (by simp [drainLoop])
  | succ fuel ih =>
    intro st last st' l' h
    rw [drainLoop] at h
    split at h
    · cases h
      rfl
    · split at h
      · cases h
      · rename_i hr
        rw [ih h, insert_return_nodes hr]

/-- The whole base traversal creates at most one node per input record. -/
theorem callSummBase_length [DecidableEq κ] {S : Strat α κ} {pre : List α}
    {st : BState κ} (h : callSummBase S pre = some st) :
    st.nodes.length ≤ pre.length := by
  rw [callSummBase] at h
  cases hr : runLoop S initState none pre with
  | none => rw [hr] at h; cases h
  | some p =>
    rw [hr] at h
    simp only [Option.bind_eq_bind, Option.some_bind] at h
    have hp : p.1.nodes.length ≤ pre.length := by
      have := runLoop_length hr
      simpa [initState] using this
    split at h
    · cases h
      exact hp
    · split at h
      · cases h
      · rename_i last _
        cases hd : drainLoop (p.1.stack.length + 1) p.1 last with
        | none => rw [hd] at h; cases h
        | some q =>
          rw [hd] at h
          simp only [Option.bind_eq_bind, Option.some_bind] at h
          cases h
          rw [drainLoop_nodes hd]
          exact hp

/-- C6: the Structure strategy never produces more nodes than the NoMatch
strategy on the same input: its second, repr-keyed pass over the NoMatch
node list only merges nodes (at most one node per NoMatch node, never a
split). -/
theorem C6_structure_le_nomatch (pre : List Activation) (st2 : BState String)
    (nm : NMState) (h2 : structRun pre = some st2) (h1 : nmCall pre = some nm) :
    st2.nodes.length ≤ nm.s.nodes.length := by
  rw [structRun] at h2
  rw [h1] at h2
  simp only [Option.bind_eq_bind, Option.some_bind] at h2
  exact callSummBase_length h2

/-- C6 (witness): the Structure pass on `c3inputB` produces 2 nodes from
the 3 NoMatch nodes. -/
theorem C6_witness :
    ((structRun c3inputB).map fun st => st.nodes.length) = some 2 ∧
    ((nmCall c3inputB).map fun nm => nm.s.nodes.length) = some 3 ∧
    2 ≤ 3 := by
  refine ⟨by decide, by decide, ?_⟩
  cases h2 : structRun c3inputB with
  | none => exact absurd h2 (by decide)
  | some st2 =>
    cases h1 : nmCall c3inputB with
    | none => exact absurd h1 (by decide)
    | some nm =>
      have hle := C6_structure_le_nomatch c3inputB st2 nm h2 h1
      have e2 : st2.nodes.length = 2 := by
        have : (structRun c3inputB).map (fun st => st.nodes.length) = some 2 := by decide
        rw [h2] at this
        simpa using this
      have e1 : nm.s.nodes.length = 3 := by
        have : (nmCall c3inputB).map (fun nm => nm.s.nodes.length) = some 3 := by decide
        rw [h1] at this
        simpa using this
      rw [← e2, ← e1]
      exact hle

end TrialGraph

namespace TrialGraph

/-- C8 (amended): the trial id is chosen per edge insertion from the target
node's trial set at that moment — the increment is filed under the sentinel
0 when the target has more than one contributing trial, and under the
unique trial id when it has exactly one — and each `(source, target, type)`
triple is emitted once, carrying its accumulated per-trial count map (shown
on `c8input`, whose five triples each appear exactly once). -/
theorem C8_amended :
    (∀ (st : BState (Nat × String)) (s t : Nat) (ty : String) (c : Nat) (src tgt : GNode),
        st.nodes.get? s = some src → st.nodes.get? t = some tgt →
        (tgt.trial_ids.length > 1 →
          add_edge st s t ty c =
            some { st with edges := bump4 st.edges src.index tgt.index ty 0 c }) ∧
        (∀ tr, tgt.trial_ids = [tr] →
          add_edge st s t ty c =
            some { st with edges := bump4 st.edges src.index tgt.index ty tr c })) ∧
    ((lnCall c8input).map fun st =>
        (Summarization.graph st []).1.edges.map fun e => (e.source, e.target, e.type)) =
      some [(0, 0, "initial"), (0, 1, "call"), (1, 2, "sequence"), (2, 1, "sequence"),
        (2, 0, "return")] := by
  constructor
  · intro st s t ty c src tgt hs ht
    constructor
    · intro hgt
      rw [add_edge, hs, ht]
      dsimp only
      rw [if_pos hgt]
    · intro tr htr
      rw [add_edge, hs, ht]
      dsimp only
      rw [htr]
      simp
  · decide

/-- C8 (witness): the single-trial branch of the `add_edge` fact at a
concrete two-node state whose target carries exactly trial 7. -/
theorem C8_amended_witness :
    add_edge w8st 0 1 "call" 1 =
      some { w8st with edges := bump4 w8st.edges w8src.index w8tgt.index "call" 7 1 } :=
  (C8_amended.1 w8st 0 1 "call" 1 w8src w8tgt rfl rfl).2 7 rfl

end TrialGraph

namespace TrialGraph

variable {γ : Type}

/-- A successful ordered-assoc lookup is a membership. -/
theorem alistFind?_mem {β : Type} [DecidableEq γ] :
    ∀ {l : List (γ × β)} {k : γ} {v : β}, alistFind? l k = some v → (k, v) ∈ l := by
  intro l
  induction l with
  | nil => intro k v h; cases h
  | cons x rest ih =>
    intro k v h
    rw [alistFind?] at h
    split at h
    · cases h
      rename_i heq
      simp [← heq]
    · simp [ih h]

/-- Members of an ordered-assoc write are the written pair or old members. -/
theorem alistSet_mem {β : Type} [DecidableEq γ] :
    ∀ {l : List (γ × β)} {k : γ} {v : β} {x : γ × β},
      x ∈ alistSet l k v → x = (k, v) ∨ x ∈ l := by
  intro l
  induction l with
  | nil =>
    intro k v x h
    rw [alistSet] at h
    simp at h
    exact Or.inl h
  | cons y rest ih =>
    intro k v x h
    rw [alistSet] at h
    split at h
    · rename_i heq
      rcases List.mem_cons.mp h with h1 | h1
      · exact Or.inl (by rw [h1, heq])
      · exact Or.inr (List.mem_cons_of_mem _ h1)
    · rcases List.mem_cons.mp h with h1 | h1
      · exact Or.inr (by simp [h1])
      · rcases ih h1 with h2 | h2
        · exact Or.inl h2
        · exact Or.inr (by simp [h2])

/-- A successful lookup index is in range. -/
theorem get?_lt_len {l : List γ} {i : Nat} {n : γ} (hi : l.get? i = some n) :
    i < l.length := by
  by_contra hc
  rw [List.get?_eq_none.mpr (Nat.le_of_not_lt hc)] at hi
  cases hi

/-- Lookup into `set p pn' ++ [nn]` at an index that was valid before. -/
theorem get?_setApp {l : List γ} {p : Nat} {pn : γ} (pn' nn : γ)
    (hg : l.get? p = some pn) {i : Nat} {n : γ} (hi : l.get? i = some n) :
    ((l.set p pn') ++ [nn]).get? i = some (if i = p then pn' else n) := by
  have hlt : i < l.length := get?_lt_len hi
  rw [List.get?_append (by simpa using hlt)]
  by_cases hip : i = p
  · subst hip
    rw [if_pos rfl]
    exact List.get?_set_eq_of_lt pn' hlt
  · rw [if_neg hip, List.get?_set_ne _ _ (fun hx => hip hx.symm)]
    exact hi

/-- Lookup of the appended node after a set-and-append. -/
theorem get?_setApp_len {l : List γ} (p : Nat) (pn' nn : γ) :
    ((l.set p pn') ++ [nn]).get? l.length = some nn := by
  have h := List.get?_concat_length (l.set p pn') nn
  simpa using h

/-- Lookup into a plain append at an index that was valid before. -/
theorem get?_app {l : List γ} (nn : γ) {i : Nat} {n : γ} (hi : l.get? i = some n) :
    (l ++ [nn]).get? i = some n := by
  rw [List.get?_append (get?_lt_len hi)]
  exact hi

/-- Setting an element to one with the same `f`-value keeps the mapped sum. -/
theorem sum_map_set_eq {f : γ → Nat} :
    ∀ {l : List γ} {p : Nat} {pn n' : γ}, l.get? p = some pn → f n' = f pn →
      ((l.set p n').map f).sum = (l.map f).sum := by
  intro l
  induction l with
  | nil => intro p pn n' hg _; cases hg
  | cons x rest ih =>
    intro p pn n' hg hf
    cases p with
    | zero =>
      cases hg
      simp [List.set, hf]
    | succ q =>
      simp only [List.get?] at hg
      show (List.map f (x :: rest.set q n')).sum = (List.map f (x :: rest)).sum
      simp only [List.map, List.sum_cons]
      rw [ih hg hf]

end TrialGraph

namespace TrialGraph

variable {α κ : Type}

/-- Full characterization of `insert_node` with no parent. -/
theorem insert_node_none_eq [DecidableEq κ] {S : Strat α κ} {st : BState κ} {a : α}
    {m? : Option κ} {st' : BState κ} {idx : Nat}
    (h : insert_node S st a none m? = some (st', idx)) :
    st' = { st with
        nid := st.nid + 1
        nodes := st.nodes ++ [S.merge (node0Of S st.nid a) a] } ∧
    idx = st.nodes.length := by
  rw [insert_node.eq_def] at h
  dsimp only at h
  simp only [Option.some.injEq, Prod.mk.injEq] at h
  exact ⟨h.1.symm, h.2.symm⟩

/-- Full characterization of `insert_node` with a parent and a match key
(the only way the traversal calls it with a parent). -/
theorem insert_node_some_eq [DecidableEq κ] {S : Strat α κ} {st : BState κ} {a : α}
    {p : Nat} {m : κ} {st' : BState κ} {idx : Nat}
    (h : insert_node S st a (some p) (some m) = some (st', idx)) :
    ∃ pn, st.nodes.get? p = some pn ∧ idx = st.nodes.length ∧
      st' = { st with
        nid := st.nid + 1
        nodes := (st.nodes.set p { pn with children := pn.children ++ [st.nodes.length] }) ++
          [{ S.merge (node0Of S st.nid a) a with
              parent_index := (pn.index : Int)
              children_index := (pn.children.length : Int) }]
        matchTbl := alistUpd st.matchTbl (pn.index : Int) []
          (fun tbl => alistSet tbl m st.nodes.length) } := by
  rw [insert_node.eq_def] at h
  dsimp only at h
  cases hg : st.nodes.get? p with
  | none => rw [hg] at h; cases h
  | some pn =>
    rw [hg] at h
    dsimp only at h
    simp only [Option.some.injEq, Prod.mk.injEq] at h
    obtain ⟨h1, h2⟩ := h
    refine ⟨pn, rfl, h2.symm, ?_⟩
    rw [← h1]

/-- A natural number cast to `Int` is never `-1`. -/
theorem natCast_ne_negOne (k : Nat) : ((k : Nat) : Int) ≠ -1 := by omega

/-- `MatchParentInv` is stable under replacing a node by one with the same
`parent_index`. -/
theorem M_set {st : BState κ} {ni : Nat} {n n' : GNode}
    (hg : st.nodes.get? ni = some n) (hp : n'.parent_index = n.parent_index)
    (hM : MatchParentInv st) :
    MatchParentInv { st with nodes := st.nodes.set ni n' } := by
  intro pr hpr kv hkv
  obtain ⟨n1, hg1, hp1⟩ := hM pr hpr kv hkv
  by_cases hi : kv.2 = ni
  · subst hi
    refine ⟨n', ?_, ?_⟩
    · exact List.get?_set_eq_of_lt n' (get?_lt_len hg1)
    · rw [hg] at hg1
      cases hg1
      rw [hp]
      exact hp1
  · exact ⟨n1, by rw [List.get?_set_ne _ _ fun hx => hi hx.symm]; exact hg1, hp1⟩

/-- `MatchParentInv` is stable under appending a node (tables unchanged). -/
theorem M_app {st : BState κ} {nn : GNode}
    (hM : MatchParentInv st) :
    MatchParentInv { st with nodes := st.nodes ++ [nn] } := by
  intro pr hpr kv hkv
  obtain ⟨n1, hg1, hp1⟩ := hM pr hpr kv hkv
  exact ⟨n1, get?_app nn hg1, hp1⟩

end TrialGraph

namespace TrialGraph

/-- `MatchParentInv` only depends on the node list and match tables. -/
theorem M_of_eq {κ : Type} {st st' : BState κ} (hn : st'.nodes = st.nodes)
    (hm : st'.matchTbl = st.matchTbl) (hM : MatchParentInv st) :
    MatchParentInv st' := by
  intro pr hpr kv hkv
  rw [hm] at hpr
  obtain ⟨n, hg, hp⟩ := hM pr hpr kv hkv
  exact ⟨n, by rw [hn]; exact hg, hp⟩

/-- The depth-0 duration contribution of a freshly created LineName node:
its own duration at its own trial. -/
theorem ln_new_depthTerm (nid : Nat) (a : Activation) (t : Nat) :
    nodeDepthTerm t (lnStrat.merge (node0Of lnStrat nid a) a) =
      if a.trial_id = t then a.duration else 0 := by
  by_cases hat : a.trial_id = t <;>
    simp [nodeDepthTerm, lnStrat, lnMerge, node0Of, alistUpd, alistGetD, alistSet,
      alistFind?, hat]

/-- `nodeDepthTerm` only depends on `parent_index` and `duration`. -/
theorem depthTerm_congr (t : Nat) {n n' : GNode} (hpi : n'.parent_index = n.parent_index)
    (hd : n'.duration = n.duration) : nodeDepthTerm t n' = nodeDepthTerm t n := by
  simp [nodeDepthTerm, hpi, hd]

/-- A LineName `insert_node` under a parent neither changes the depth-0
duration sum (the new node is not depth-0, the parent keeps its fields) nor
breaks the match-table invariant (the registered node has a parent). -/
theorem ln_insert_node_some_spec {st : BState (Nat × String)} {a : Activation}
    {p : Nat} {m : Nat × String} {st' : BState (Nat × String)} {idx : Nat}
    (h : insert_node lnStrat st a (some p) (some m) = some (st', idx)) (t : Nat)
    (hM : MatchParentInv st) :
    depthSum st' t = depthSum st t ∧ MatchParentInv st' := by
  obtain ⟨pn, hg, hidx, hst⟩ := insert_node_some_eq h
  subst hst
  constructor
  · simp only [depthSum]
    rw [List.map_append, List.sum_append]
    have hf : nodeDepthTerm t { pn with children := pn.children ++ [st.nodes.length] } =
        nodeDepthTerm t pn := depthTerm_congr t rfl rfl
    rw [sum_map_set_eq hg hf]
    simp [nodeDepthTerm, natCast_ne_negOne pn.index]
  · intro pr hpr kv hkv
    have htrans : (∃ n1, st.nodes.get? kv.2 = some n1 ∧ n1.parent_index ≠ -1) →
        ∃ n, ((st.nodes.set p { pn with children := pn.children ++ [st.nodes.length] }) ++
          [{ lnStrat.merge (node0Of lnStrat st.nid a) a with
              parent_index := (pn.index : Int)
              children_index := (pn.children.length : Int) }]).get? kv.2 = some n ∧
          n.parent_index ≠ -1 := by
      rintro ⟨n1, hg1, hp1⟩
      refine ⟨_, get?_setApp _ _ hg hg1, ?_⟩
      by_cases hip : kv.2 = p
      · rw [if_pos hip]
        rw [hip, hg] at hg1
        cases hg1
        exact hp1
      · rw [if_neg hip]
        exact hp1
    rcases alistSet_mem hpr with hpr1 | hpr1
    · subst hpr1
      rcases alistSet_mem hkv with hkv1 | hkv1
      · subst hkv1
        refine ⟨_, get?_setApp_len p _ _, ?_⟩
        exact natCast_ne_negOne pn.index
      · cases hf : alistFind? st.matchTbl (pn.index : Int) with
        | none =>
          rw [alistGetD, hf] at hkv1
          cases hkv1
        | some tbl0 =>
          rw [alistGetD, hf] at hkv1
          exact htrans (hM _ (alistFind?_mem hf) kv hkv1)
    · exact htrans (hM pr hpr1 kv hkv)

end TrialGraph

namespace TrialGraph

variable {α κ : Type}

/-- `insert_return` also keeps the match tables. -/
theorem insert_return_matchTbl [DecidableEq κ] {st : BState κ} {last : Nat}
    {st' : BState κ} {l' : Nat} (h : insert_return st last = some (st', l')) :
    st'.matchTbl = st.matchTbl := by
  rw [insert_return] at h
  split at h
  · cases h
  · rename_i temp rest hs
    cases he : add_edge { st with stack := rest } last temp "return" 1 with
    | none => rw [he] at h; cases h
    | some st2 =>
      rw [he] at h
      simp only [Option.bind_eq_bind, Option.some_bind, Option.some.injEq, Prod.mk.injEq] at h
      obtain ⟨h1, _⟩ := h
      rw [← h1]
      exact (add_edge_same he).2.2.1

/-- `popLoop` keeps the match tables. -/
theorem popLoop_matchTbl [DecidableEq κ] :
    ∀ {fuel cid : Nat} {st : BState κ} {last : Nat} {st' : BState κ} {l' : Nat},
      popLoop fuel cid st last = some (st', l') → st'.matchTbl = st.matchTbl := by
  intro fuel
  induction fuel with
  | zero => intro _ _ _ _ _ h; exact absurd h (by simp [popLoop])
  | succ fuel ih =>
    intro cid st last st' l' h
    rw [popLoop] at h
    split at h
    · cases h
    · split at h
      · split at h
        · cases h
        · rename_i hr
          rw [ih h, insert_return_matchTbl hr]
      · cases h
        rfl

/-- `drainLoop` keeps the match tables. -/
theorem drainLoop_matchTbl [DecidableEq κ] :
    ∀ {fuel : Nat} {st : BState κ} {last : Nat} {st' : BState κ} {l' : Nat},
      drainLoop fuel st last = some (st', l') → st'.matchTbl = st.matchTbl := by
  intro fuel
  induction fuel with
  | zero => intro _ _ _ _ h; exact absurd h (by simp [drainLoop])
  | succ fuel ih =>
    intro st last st' l' h
    rw [drainLoop] at h
    split at h
    · cases h
      rfl
    · split at h
      · cases h
      · rename_i hr
        rw [ih h, insert_return_matchTbl hr]

/-- A LineName `insert_first` adds exactly the new record's duration to the
depth-0 duration sum of its trial and keeps the match-table invariant. -/
theorem ln_insert_first_spec {st : BState (Nat × String)} {a : Activation}
    {st' : BState (Nat × String)} {idx : Nat}
    (h : insert_first lnStrat st a = some (st', idx)) (t : Nat)
    (hM : MatchParentInv st) :
    depthSum st' t = depthSum st t + (if a.trial_id = t then a.duration else 0) ∧
    MatchParentInv st' := by
  rw [insert_first] at h
  cases hn : insert_node lnStrat st a none none with
  | none => rw [hn] at h; cases h
  | some q =>
    rw [hn] at h
    simp only [Option.bind_eq_bind, Option.some_bind] at h
    cases he : add_edge { q.1 with root := some q.2 } q.2 q.2 "initial" 1 with
    | none => rw [he] at h; cases h
    | some st2 =>
      rw [he] at h
      cases h
      obtain ⟨hq, _⟩ := insert_node_none_eq hn
      rw [hq] at he
      have hnodes : st'.nodes = st.nodes ++ [lnStrat.merge (node0Of lnStrat st.nid a) a] := by
        simpa using (add_edge_same he).1
      have hmt : st'.matchTbl = st.matchTbl := by
        simpa using (add_edge_same he).2.2.1
      constructor
      · simp only [depthSum, hnodes, List.map_append, List.sum_append]
        simp [ln_new_depthTerm st.nid a t]
      · exact @M_of_eq (Nat × String)
          { st with nodes := st.nodes ++ [lnStrat.merge (node0Of lnStrat st.nid a) a] }
          st' hnodes hmt (M_app hM)

/-- A LineName `insert_call` keeps the depth-0 duration sum and the
match-table invariant. -/
theorem ln_insert_call_spec {st : BState (Nat × String)} {a : Activation}
    {last : Nat} {st' : BState (Nat × String)} {idx : Nat}
    (h : insert_call lnStrat st a last = some (st', idx)) (t : Nat)
    (hM : MatchParentInv st) :
    depthSum st' t = depthSum st t ∧ MatchParentInv st' := by
  rw [insert_call] at h
  cases hn : insert_node lnStrat { st with stack := last :: st.stack } a (some last)
      (some (lnStrat.cmatch a)) with
  | none => rw [hn] at h; cases h
  | some q =>
    rw [hn] at h
    simp only [Option.bind_eq_bind, Option.some_bind] at h
    cases he : add_edge q.1 last q.2 "call" 1 with
    | none => rw [he] at h; cases h
    | some st2 =>
      rw [he] at h
      cases h
      have hstk : MatchParentInv { st with stack := last :: st.stack } :=
        M_of_eq rfl rfl hM
      obtain ⟨hd, hMq⟩ := ln_insert_node_some_spec hn t hstk
      constructor
      · have hds : depthSum st' t = depthSum q.1 t := by
          simp only [depthSum, (add_edge_same he).1]
        rw [hds, hd]
        rfl
      · exact M_of_eq (add_edge_same he).1 (add_edge_same he).2.2.1 hMq

end TrialGraph

namespace TrialGraph

/-- A LineName `insert_sequence` keeps the depth-0 duration sum (a found
sibling is merged in place and, by the match-table invariant, is not a
depth-0 node; a created sibling is put under a parent) and keeps the
match-table invariant. -/
theorem ln_insert_sequence_spec {st : BState (Nat × String)} {a : Activation}
    {last : Nat} {st' : BState (Nat × String)} {idx : Nat}
    (h : insert_sequence lnStrat st a last = some (st', idx)) (t : Nat)
    (hM : MatchParentInv st) :
    depthSum st' t = depthSum st t ∧ MatchParentInv st' := by
  rw [insert_sequence] at h
  cases hl : st.nodes.get? last with
  | none => rw [hl] at h; cases h
  | some ln =>
    rw [hl] at h
    simp only [Option.bind_eq_bind, Option.some_bind] at h
    split at h
    · cases hp : pyIdx st.nodes.length ln.parent_index with
      | none => rw [hp] at h; cases h
      | some p =>
        rw [hp] at h
        simp only [Option.bind_eq_bind, Option.some_bind] at h
        cases hn : insert_node lnStrat st a (some p) (some (lnStrat.cmatch a)) with
        | none => rw [hn] at h; cases h
        | some q =>
          rw [hn] at h
          simp only [Option.bind_eq_bind, Option.some_bind] at h
          cases he : add_edge q.1 last q.2 "sequence" 1 with
          | none => rw [he] at h; cases h
          | some st2 =>
            rw [he] at h
            cases h
            obtain ⟨hd, hMq⟩ := ln_insert_node_some_spec hn t hM
            constructor
            · have hds : depthSum st' t = depthSum q.1 t := by
                simp only [depthSum, (add_edge_same he).1]
              rw [hds, hd]
            · exact M_of_eq (add_edge_same he).1 (add_edge_same he).2.2.1 hMq
    · rename_i ni hfind
      cases hg : st.nodes.get? ni with
      | none => rw [hg] at h; cases h
      | some n =>
        rw [hg] at h
        simp only [Option.bind_eq_bind, Option.some_bind] at h
        cases he : add_edge { st with nodes := st.nodes.set ni (lnStrat.merge n a) }
            last ni "sequence" 1 with
        | none => rw [he] at h; cases h
        | some st2 =>
          rw [he] at h
          cases h
          have hnotroot : n.parent_index ≠ -1 := by
            cases hf0 : alistFind? st.matchTbl ln.parent_index with
            | none =>
              rw [alistGetD, hf0] at hfind
              cases hfind
            | some tbl0 =>
              rw [alistGetD, hf0] at hfind
              obtain ⟨n0, hg0, hp0⟩ :=
                hM _ (alistFind?_mem hf0) _ (alistFind?_mem hfind)
              rw [hg] at hg0
              cases hg0
              exact hp0
          have hmrg : nodeDepthTerm t (lnStrat.merge n a) = nodeDepthTerm t n := by
            simp [nodeDepthTerm, lnStrat, lnMerge, hnotroot]
          constructor
          · have hds : depthSum st' t =
                depthSum { st with nodes := st.nodes.set idx (lnStrat.merge n a) } t := by
              simp only [depthSum, (add_edge_same he).1]
            rw [hds]
            simp only [depthSum]
            exact sum_map_set_eq hg hmrg
          · have hMset : MatchParentInv
                { st with nodes := st.nodes.set idx (lnStrat.merge n a) } :=
              M_set hg (by simp [lnStrat, lnMerge]) hM
            exact M_of_eq (add_edge_same he).1 (add_edge_same he).2.2.1 hMset

end TrialGraph

namespace TrialGraph

/-- One LineName traversal step adds the record's duration to the depth-0
duration sum of its trial exactly when the record has falsy caller_id, and
keeps the match-table invariant. -/
theorem ln_stepRecord_spec {st : BState (Nat × String)} {last? : Option Nat}
    {a : Activation} {st' : BState (Nat × String)} {l' : Option Nat}
    (h : stepRecord lnStrat st last? a = some (st', l')) (t : Nat)
    (hM : MatchParentInv st) :
    depthSum st' t = depthSum st t +
      (if a.caller_id = 0 ∧ a.trial_id = t then a.duration else 0) ∧
    MatchParentInv st' := by
  rw [stepRecord.eq_def] at h
  split at h
  · rename_i hz
    have hz' : a.caller_id = 0 := hz
    cases hf : insert_first lnStrat st a with
    | none => rw [hf] at h; cases h
    | some q =>
      rw [hf] at h
      simp only [Option.bind_eq_bind, Option.some_bind, Option.some.injEq,
        Prod.mk.injEq] at h
      obtain ⟨h1, _⟩ := h
      obtain ⟨hd, hMq⟩ := ln_insert_first_spec hf t hM
      rw [← h1]
      constructor
      · rw [hd]
        simp [hz']
      · exact hMq
  · rename_i hz
    have hnz : ¬(a.caller_id = 0) := hz
    have hzero : (if a.caller_id = 0 ∧ a.trial_id = t then a.duration else 0) = 0 := by
      simp [hnz]
    rw [hzero]
    split at h
    · cases h
    · rename_i last
      cases hl : st.nodes.get? last with
      | none => rw [hl] at h; cases h
      | some ln =>
        rw [hl] at h
        simp only [Option.bind_eq_bind, Option.some_bind] at h
        split at h
        · cases hc : insert_call lnStrat st a last with
          | none => rw [hc] at h; cases h
          | some q =>
            rw [hc] at h
            simp only [Option.bind_eq_bind, Option.some_bind, Option.some.injEq,
              Prod.mk.injEq] at h
            obtain ⟨h1, _⟩ := h
            obtain ⟨hd, hMq⟩ := ln_insert_call_spec hc t hM
            rw [← h1]
            exact ⟨by rw [hd]; simp, hMq⟩
        · cases hp : popLoop (st.stack.length + 1) (lnStrat.acid a) st last with
          | none => rw [hp] at h; cases h
          | some q =>
            rw [hp] at h
            simp only [Option.bind_eq_bind, Option.some_bind] at h
            have hqn : q.1.nodes = st.nodes := popLoop_nodes hp
            have hqd : depthSum q.1 t = depthSum st t := by simp only [depthSum, hqn]
            have hqM : MatchParentInv q.1 := M_of_eq hqn (popLoop_matchTbl hp) hM
            cases hg : q.1.nodes.get? q.2 with
            | none => rw [hg] at h; cases h
            | some ln1 =>
              rw [hg] at h
              simp only [Option.bind_eq_bind, Option.some_bind] at h
              split at h
              · cases hs : insert_sequence lnStrat q.1 a q.2 with
                | none => rw [hs] at h; cases h
                | some r =>
                  rw [hs] at h
                  simp only [Option.bind_eq_bind, Option.some_bind, Option.some.injEq,
                    Prod.mk.injEq] at h
                  obtain ⟨h1, _⟩ := h
                  obtain ⟨hd, hMr⟩ :=
                    ln_insert_sequence_spec hs t hqM
                  rw [← h1]
                  exact ⟨by rw [hd, hqd]; simp, hMr⟩
              · simp only [Option.some.injEq, Prod.mk.injEq] at h
                obtain ⟨h1, _⟩ := h
                rw [← h1]
                exact ⟨by rw [hqd]; simp, hqM⟩

/-- The LineName record loop adds, per trial, exactly the durations of the
falsy-caller_id records, and keeps the match-table invariant. -/
theorem ln_runLoop_spec :
    ∀ {pre : List Activation} {st : BState (Nat × String)} {last? : Option Nat}
      {st' : BState (Nat × String)} {l' : Option Nat},
      runLoop lnStrat st last? pre = some (st', l') → ∀ t, MatchParentInv st →
      depthSum st' t = depthSum st t + recSum pre t ∧ MatchParentInv st' := by
  intro pre
  induction pre with
  | nil =>
    intro st last? st' l' h t hM
    rw [runLoop] at h
    cases h
    simp [recSum, hM]
  | cons a rest ih =>
    intro st last? st' l' h t hM
    rw [runLoop] at h
    cases hs : stepRecord lnStrat st last? a with
    | none => rw [hs] at h; cases h
    | some q =>
      rw [hs] at h
      simp only [Option.bind_eq_bind, Option.some_bind] at h
      obtain ⟨hd1, hM1⟩ := ln_stepRecord_spec hs t hM
      obtain ⟨hd2, hM2⟩ := ih h t hM1
      refine ⟨?_, hM2⟩
      rw [hd2, hd1]
      simp only [recSum, List.map_cons, List.sum_cons]
      ring

/-- C5: for every successfully summarized input and every trial, the sum of
the per-trial durations on all depth-0 nodes (`parent_index = -1`) of the
LineName graph equals the sum of the durations of the input records with
falsy caller_id belonging to that trial (root conservation). -/
theorem C5_root_conservation (pre : List Activation) (st : BState (Nat × String))
    (h : lnCall pre = some st) (t : Nat) : depthSum st t = recSum pre t := by
  rw [lnCall, callSummBase] at h
  cases hr : runLoop lnStrat initState none pre with
  | none => rw [hr] at h; cases h
  | some p =>
    rw [hr] at h
    simp only [Option.bind_eq_bind, Option.some_bind] at h
    have hM0 : MatchParentInv (initState (κ := Nat × String)) := by
      intro pr hpr
      simp [initState] at hpr
    obtain ⟨hd, _⟩ := ln_runLoop_spec hr t hM0
    have hd0 : depthSum p.1 t = recSum pre t := by
      rw [hd]
      simp [depthSum, initState]
    split at h
    · cases h
      exact hd0
    · split at h
      · cases h
      · rename_i last _
        cases hdr : drainLoop (p.1.stack.length + 1) p.1 last with
        | none => rw [hdr] at h; cases h
        | some q =>
          rw [hdr] at h
          simp only [Option.bind_eq_bind, Option.some_bind] at h
          cases h
          have : q.1.nodes = p.1.nodes := drainLoop_nodes hdr
          rw [show depthSum q.1 t = depthSum p.1 t by simp only [depthSum, this]]
          exact hd0

/-- C5 (witness): root conservation at the concrete three-record input
(depth-0 durations 10 + 7 = records 1 and 3 of trial 1). -/
theorem C5_witness : ((lnCall c1input).map fun st => depthSum st 1) =
    some (recSum c1input 1) := by
  cases h : lnCall c1input with
  | none => exact absurd h (by decide)
  | some st => simp [C5_root_conservation c1input st h]

end TrialGraph

namespace TrialGraph

/-- A lookup into a fresh-key table misses when all keys are smaller. -/
theorem alistFind?_counter_miss {mid : Nat} :
    ∀ {tbl : List (Nat × Nat)}, (∀ kv ∈ tbl, kv.1 ≤ mid) →
      alistFind? tbl (mid + 1) = none := by
  intro tbl
  induction tbl with
  | nil => intro _; rfl
  | cons kv rest ih =>
    intro hall
    rw [alistFind?]
    have h1 : kv.1 ≤ mid := hall kv (by simp)
    rw [if_neg (by omega)]
    exact ih fun x hx => hall x (by simp [hx])

/-- `pyIdx` on a cast natural index in range. -/
theorem pyIdx_natCast {p len : Nat} (h : p < len) :
    pyIdx len ((p : Nat) : Int) = some p := by
  simp [pyIdx, h]

/-- `NInvB` is stable under replacing a node by one with the same index,
caller_id, parent_index and children, and a trial set no emptier. -/
theorem NInvB_set {s : BState Nat} {mid : Nat} {i : Nat} {n n' : GNode}
    (hb : NInvB s mid) (hg : s.nodes.get? i = some n)
    (hidx : n'.index = n.index) (hcid : n'.caller_id = n.caller_id)
    (hpar : n'.parent_index = n.parent_index) (hch : n'.children = n.children)
    (htr : n.trial_ids ≠ [] → n'.trial_ids ≠ []) :
    NInvB { s with nodes := s.nodes.set i n' } mid := by
  have hmemn : n ∈ s.nodes := List.get?_mem hg
  refine ⟨?_, ?_, ?_, ?_, ?_, ?_, ?_⟩
  · simp [hb.nid_eq]
  · intro j nj hj
    by_cases hji : j = i
    · subst hji
      rw [List.get?_set_eq_of_lt _ (get?_lt_len hg)] at hj
      cases hj
      rw [hidx]
      exact hb.idx_inv j n hg
    · rw [List.get?_set_ne _ _ fun hx => hji hx.symm] at hj
      exact hb.idx_inv j nj hj
  · intro m hm
    rcases List.mem_or_eq_of_mem_set hm with hm1 | hm1
    · exact hb.trial_ne m hm1
    · subst hm1
      exact htr (hb.trial_ne n hmemn)
  · intro j nj hj hc
    by_cases hji : j = i
    · subst hji
      rw [List.get?_set_eq_of_lt _ (get?_lt_len hg)] at hj
      cases hj
      rw [hcid] at hc
      obtain ⟨p, hp1, hp2⟩ := hb.parent_ok j n hg hc
      exact ⟨p, by rw [hpar]; exact hp1, hp2⟩
    · rw [List.get?_set_ne _ _ fun hx => hji hx.symm] at hj
      exact hb.parent_ok j nj hj hc
  · intro m hm c hc
    rcases List.mem_or_eq_of_mem_set hm with hm1 | hm1
    · have := hb.child_lt m hm1 c hc
      simpa using this
    · subst hm1
      rw [hch] at hc
      have := hb.child_lt n hmemn c hc
      simpa using this
  · intro m hm
    rcases List.mem_or_eq_of_mem_set hm with hm1 | hm1
    · exact hb.child_sorted m hm1
    · subst hm1
      rw [hch]
      exact hb.child_sorted n hmemn
  · exact hb.mkeys

/-- Node lookups keep their caller_id under a same-skeleton set. -/
theorem cidStable_set {s : BState Nat} {i : Nat} {n n' : GNode}
    (hg : s.nodes.get? i = some n) (hcid : n'.caller_id = n.caller_id) :
    ∀ {j : Nat} {m : GNode}, s.nodes.get? j = some m →
      ∃ m2, (s.nodes.set i n').get? j = some m2 ∧ m2.caller_id = m.caller_id := by
  intro j m hj
  by_cases hji : j = i
  · subst hji
    rw [hj] at hg
    cases hg
    exact ⟨n', List.get?_set_eq_of_lt _ (get?_lt_len hj), hcid⟩
  · exact ⟨m, by rw [List.get?_set_ne _ _ fun hx => hji hx.symm]; exact hj, rfl⟩

/-- `StackCorr` transfers along caller_id-stable node-list changes. -/
theorem StackCorr_mono {s s' : BState Nat} {vstk : List Nat}
    (hstk : s'.stack = s.stack)
    (hstable : ∀ {j : Nat} {m : GNode}, s.nodes.get? j = some m →
      ∃ m2, s'.nodes.get? j = some m2 ∧ m2.caller_id = m.caller_id)
    (hc : StackCorr s vstk) : StackCorr s' vstk := by
  rw [StackCorr, hstk]
  refine List.Forall₂.imp ?_ hc
  rintro x c ⟨n, hg, hcid⟩
  obtain ⟨m2, hg2, hcid2⟩ := hstable hg
  exact ⟨m2, hg2, by rw [hcid2, hcid]⟩

end TrialGraph

namespace TrialGraph

/-- Setting the appended position rewrites just the appended element. -/
theorem set_concat_length {γ : Type} : ∀ (l : List γ) (x y : γ),
    (l ++ [x]).set l.length y = l ++ [y] := by
  intro l
  induction l with
  | nil => intro x y; rfl
  | cons a rest ih => intro x y; simp [List.set, ih]

/-- Characterization of `nm_insert_node` with no parent. -/
theorem nm_insert_node_none_eq (s : BState Nat) (a : Activation) :
    nm_insert_node s a none none =
      some ({ s with
        nid := s.nid + 1
        nodes := s.nodes ++ [{ lnMerge (node0Of nmStratBase s.nid a) a with
          repr := toString a.line ++ "-" ++ a.name }] }, s.nodes.length) := by
  rw [nm_insert_node]
  have h1 : insert_node nmStratBase s a none none =
      some ({ s with
        nid := s.nid + 1
        nodes := s.nodes ++ [lnMerge (node0Of nmStratBase s.nid a) a] }, s.nodes.length) := rfl
  rw [h1]
  simp only [Option.bind_eq_bind, Option.some_bind]
  rw [show ({ s with
        nid := s.nid + 1
        nodes := s.nodes ++ [lnMerge (node0Of nmStratBase s.nid a) a] } : BState Nat).nodes.get?
      s.nodes.length = some (lnMerge (node0Of nmStratBase s.nid a) a) from
    List.get?_concat_length _ _]
  simp only [Option.bind_eq_bind, Option.some_bind, Option.some.injEq]
  rw [show ((s.nodes ++ [lnMerge (node0Of nmStratBase s.nid a) a]).set s.nodes.length
      { lnMerge (node0Of nmStratBase s.nid a) a with
        repr := toString a.line ++ "-" ++ a.name }) =
      s.nodes ++ [{ lnMerge (node0Of nmStratBase s.nid a) a with
        repr := toString a.line ++ "-" ++ a.name }] from set_concat_length _ _ _]

end TrialGraph

namespace TrialGraph

/-- `set_concat_length` with a rewritten position. -/
theorem set_concat_length' {γ : Type} (l : List γ) (x y : γ) {k : Nat}
    (hk : k = l.length) : (l ++ [x]).set k y = l ++ [y] := by
  rw [hk, set_concat_length]

/-- Characterization of `nm_insert_node` with a parent and a match key. -/
theorem nm_insert_node_some_eq {s : BState Nat} {a : Activation} {p m : Nat}
    {pn : GNode} (hg : s.nodes.get? p = some pn) :
    nm_insert_node s a (some p) (some m) =
      some ({ s with
        nid := s.nid + 1
        nodes := (s.nodes.set p { pn with children := pn.children ++ [s.nodes.length] }) ++
          [{ lnMerge (node0Of nmStratBase s.nid a) a with
              parent_index := (pn.index : Int)
              children_index := (pn.children.length : Int)
              repr := toString a.line ++ "-" ++ a.name }]
        matchTbl := alistUpd s.matchTbl (pn.index : Int) []
          (fun tbl => alistSet tbl m s.nodes.length) }, s.nodes.length) := by
  have h1 : insert_node nmStratBase s a (some p) (some m) =
      some ({ s with
        nid := s.nid + 1
        nodes := (s.nodes.set p { pn with children := pn.children ++ [s.nodes.length] }) ++
          [{ lnMerge (node0Of nmStratBase s.nid a) a with
              parent_index := (pn.index : Int)
              children_index := (pn.children.length : Int) }]
        matchTbl := alistUpd s.matchTbl (pn.index : Int) []
          (fun tbl => alistSet tbl m s.nodes.length) }, s.nodes.length) := by
    rw [insert_node.eq_def]
    dsimp only
    rw [hg]
    rfl
  rw [nm_insert_node, h1]
  simp only [Option.bind_eq_bind, Option.some_bind]
  rw [show ({ s with
        nid := s.nid + 1
        nodes := (s.nodes.set p { pn with children := pn.children ++ [s.nodes.length] }) ++
          [{ lnMerge (node0Of nmStratBase s.nid a) a with
              parent_index := (pn.index : Int)
              children_index := (pn.children.length : Int) }]
        matchTbl := alistUpd s.matchTbl (pn.index : Int) []
          (fun tbl => alistSet tbl m s.nodes.length) } : BState Nat).nodes.get? s.nodes.length =
      some { lnMerge (node0Of nmStratBase s.nid a) a with
        parent_index := (pn.index : Int)
        children_index := (pn.children.length : Int) } from get?_setApp_len p _ _]
  simp only [Option.bind_eq_bind, Option.some_bind, Option.some.injEq]
  rw [set_concat_length' _ _ _ (by simp)]

end TrialGraph

namespace TrialGraph

/-- `NInvB` after appending a fresh root-style node. -/
theorem NInvB_app {s : BState Nat} {mid : Nat} {nn : GNode} (hb : NInvB s mid)
    (hidx : nn.index = s.nodes.length) (htr : nn.trial_ids ≠ [])
    (hch : nn.children = [])
    (hpo : nn.caller_id ≠ 0 → ∃ p : Nat, nn.parent_index = (p : Int) ∧ p < s.nodes.length) :
    NInvB { s with nid := s.nid + 1, nodes := s.nodes ++ [nn] } mid := by
  refine ⟨?_, ?_, ?_, ?_, ?_, ?_, ?_⟩
  · simp [hb.nid_eq]
  · intro j nj hj
    by_cases hjl : j = s.nodes.length
    · subst hjl
      rw [List.get?_concat_length] at hj
      cases hj
      exact hidx
    · have hjlt : j < s.nodes.length := by
        have := get?_lt_len hj
        simp at this
        omega
      rw [List.get?_append hjlt] at hj
      exact hb.idx_inv j nj hj
  · intro m hm
    rcases List.mem_append.mp hm with hm1 | hm1
    · exact hb.trial_ne m hm1
    · rw [List.mem_singleton.mp hm1]
      exact htr
  · intro j nj hj hc
    by_cases hjl : j = s.nodes.length
    · subst hjl
      rw [List.get?_concat_length] at hj
      cases hj
      exact hpo hc
    · have hjlt : j < s.nodes.length := by
        have := get?_lt_len hj
        simp at this
        omega
      rw [List.get?_append hjlt] at hj
      exact hb.parent_ok j nj hj hc
  · intro m hm c hc
    rcases List.mem_append.mp hm with hm1 | hm1
    · have := hb.child_lt m hm1 c hc
      simp
      omega
    · rw [List.mem_singleton.mp hm1] at hc
      rw [hch] at hc
      cases hc
  · intro m hm
    rcases List.mem_append.mp hm with hm1 | hm1
    · exact hb.child_sorted m hm1
    · rw [List.mem_singleton.mp hm1, hch]
      exact List.Pairwise.nil
  · exact hb.mkeys

/-- `NInvB` after the set-parent-and-append shape of a parented insert. -/
theorem NInvB_insert_shape {s : BState Nat} {mid : Nat} {p : Nat} {pn : GNode}
    (hb : NInvB s mid) (hg : s.nodes.get? p = some pn) {nn : GNode}
    (hidx : nn.index = s.nodes.length) (htr : nn.trial_ids ≠ [])
    (hch : nn.children = []) (hpar : nn.parent_index = (pn.index : Int))
    {m mid2 : Nat} (hmono : mid ≤ mid2) (hm : m ≤ mid2) :
    NInvB { s with
      nid := s.nid + 1
      nodes := (s.nodes.set p { pn with children := pn.children ++ [s.nodes.length] }) ++ [nn]
      matchTbl := alistUpd s.matchTbl (pn.index : Int) []
        (fun tbl => alistSet tbl m s.nodes.length) } mid2 := by
  have hplt : p < s.nodes.length := get?_lt_len hg
  have hpidx : pn.index = p := hb.idx_inv p pn hg
  have hpnmem : pn ∈ s.nodes := List.get?_mem hg
  have hlen : ((s.nodes.set p { pn with children := pn.children ++ [s.nodes.length] }) ++
      [nn]).length = s.nodes.length + 1 := by simp
  refine ⟨?_, ?_, ?_, ?_, ?_, ?_, ?_⟩
  · simp [hb.nid_eq]
  · intro j nj hj
    by_cases hjl : j = s.nodes.length
    · subst hjl
      rw [get?_setApp_len] at hj
      cases hj
      exact hidx
    · have hjlt : j < s.nodes.length := by
        have := get?_lt_len hj
        rw [hlen] at this
        omega
      cases hj0 : s.nodes.get? j with
      | none => exact absurd hj0 (by rw [List.get?_eq_none]; omega)
      | some old =>
        rw [get?_setApp _ _ hg hj0] at hj
        cases hj
        by_cases hjp : j = p
        · rw [if_pos hjp]
          simp only
          rw [hpidx, hjp]
        · rw [if_neg hjp]
          exact hb.idx_inv j old hj0
  · intro x hx
    rcases List.mem_append.mp hx with hx1 | hx1
    · rcases List.mem_or_eq_of_mem_set hx1 with hx2 | hx2
      · exact hb.trial_ne x hx2
      · subst hx2
        exact hb.trial_ne pn hpnmem
    · rw [List.mem_singleton.mp hx1]
      exact htr
  · intro j nj hj hc
    by_cases hjl : j = s.nodes.length
    · subst hjl
      rw [get?_setApp_len] at hj
      cases hj
      exact ⟨p, by rw [hpar, hpidx], hplt⟩
    · have hjlt : j < s.nodes.length := by
        have := get?_lt_len hj
        rw [hlen] at this
        omega
      cases hj0 : s.nodes.get? j with
      | none => exact absurd hj0 (by rw [List.get?_eq_none]; omega)
      | some old =>
        rw [get?_setApp _ _ hg hj0] at hj
        cases hj
        by_cases hjp : j = p
        · rw [if_pos hjp] at hc ⊢
          have hco : old.caller_id ≠ 0 := by
            subst hjp
            rw [hj0] at hg
            cases hg
            exact hc
          obtain ⟨pp, hp1, hp2⟩ := hb.parent_ok j old hj0 hco
          refine ⟨pp, ?_, hp2⟩
          show pn.parent_index = (pp : Int)
          subst hjp
          rw [hj0] at hg
          cases hg
          exact hp1
        · rw [if_neg hjp] at hc ⊢
          exact hb.parent_ok j old hj0 hc
  · intro x hx c hc
    rcases List.mem_append.mp hx with hx1 | hx1
    · rcases List.mem_or_eq_of_mem_set hx1 with hx2 | hx2
      · have := hb.child_lt x hx2 c hc
        simp
        omega
      · subst hx2
        simp only at hc
        rcases List.mem_append.mp hc with hc1 | hc1
        · have := hb.child_lt pn hpnmem c hc1
          simp
          omega
        · have := List.mem_singleton.mp hc1
          simp
          omega
    · rw [List.mem_singleton.mp hx1, hch] at hc
      cases hc
  · intro x hx
    rcases List.mem_append.mp hx with hx1 | hx1
    · rcases List.mem_or_eq_of_mem_set hx1 with hx2 | hx2
      · exact hb.child_sorted x hx2
      · subst hx2
        simp only
        rw [List.pairwise_append]
        refine ⟨hb.child_sorted pn hpnmem, by simp, ?_⟩
        intro y hy z hz
        rw [List.mem_singleton.mp hz]
        exact hb.child_lt pn hpnmem y hy
    · rw [List.mem_singleton.mp hx1, hch]
      exact List.Pairwise.nil
  · intro pr hpr kv hkv
    rcases alistSet_mem hpr with hpr1 | hpr1
    · subst hpr1
      rcases alistSet_mem hkv with hkv1 | hkv1
      · rw [hkv1]
        exact hm
      · cases hf : alistFind? s.matchTbl (pn.index : Int) with
        | none =>
          rw [alistGetD, hf] at hkv1
          cases hkv1
        | some tbl0 =>
          rw [alistGetD, hf] at hkv1
          exact le_trans (hb.mkeys _ (alistFind?_mem hf) kv hkv1) hmono
    · exact le_trans (hb.mkeys pr hpr1 kv hkv) hmono

end TrialGraph

namespace TrialGraph

variable {α κ : Type}

/-- `add_edge` succeeds whenever both endpoints exist and the target has a
non-empty trial set, and it only touches the edge accumulator. -/
theorem add_edge_ok [DecidableEq κ] {st : BState κ} {s t : Nat} {sn tn : GNode}
    (hs : st.nodes.get? s = some sn) (ht : st.nodes.get? t = some tn)
    (htr : tn.trial_ids ≠ []) (ty : String) (c : Nat) :
    ∃ st', add_edge st s t ty c = some st' ∧ st'.nodes = st.nodes ∧
      st'.stack = st.stack ∧ st'.matchTbl = st.matchTbl ∧ st'.nid = st.nid ∧
      st'.root = st.root := by
  rw [add_edge, hs, ht]
  dsimp only
  split
  · exact ⟨_, rfl, rfl, rfl, rfl, rfl, rfl⟩
  · cases hids : tn.trial_ids with
    | nil => exact absurd hids htr
    | cons t0 rest =>
      exact ⟨_, rfl, rfl, rfl, rfl, rfl, rfl⟩

end TrialGraph

namespace TrialGraph

/-- The trial set of a freshly merged LineName node. -/
theorem lnMerge_node0_trials {κ : Type} (S : Strat Activation κ) (nid : Nat)
    (a : Activation) : (lnMerge (node0Of S nid a) a).trial_ids = [a.trial_id] := by
  simp [lnMerge, node0Of]

/-- Full characterization of `nm_insert_first`: it always succeeds and files
the `initial` self-loop under the record's own trial. -/
theorem nm_insert_first_eq (st : NMState) (a : Activation) :
    nm_insert_first st a = some (⟨{ st.s with
        nid := st.s.nid + 1
        root := some st.s.nodes.length
        nodes := st.s.nodes ++ [{ lnMerge (node0Of nmStratBase st.s.nid a) a with
          repr := toString a.line ++ "-" ++ a.name }]
        edges := bump4 st.s.edges st.s.nid st.s.nid "initial" a.trial_id 1 }, st.match_id⟩,
      st.s.nodes.length) := by
  rw [nm_insert_first, nm_insert_node_none_eq]
  simp only [Option.bind_eq_bind, Option.some_bind]
  rw [add_edge.eq_def]
  dsimp only
  rw [List.get?_concat_length]
  dsimp only
  rw [lnMerge_node0_trials]
  simp [show (lnMerge (node0Of nmStratBase st.s.nid a) a).index = st.s.nid from rfl]

end TrialGraph

namespace TrialGraph

/-- Rewriting form of `add_edge` when the target's trial set is a known
singleton. -/
theorem add_edge_eq {κ : Type} [DecidableEq κ] {st : BState κ} {s t : Nat}
    {sn tn : GNode} (hs : st.nodes.get? s = some sn) (ht : st.nodes.get? t = some tn)
    {tr : Nat} (htr : tn.trial_ids = [tr]) (ty : String) (c : Nat) :
    add_edge st s t ty c =
      some { st with edges := bump4 st.edges sn.index tn.index ty tr c } := by
  rw [add_edge, hs, ht]
  dsimp only
  rw [htr]
  simp

end TrialGraph

namespace TrialGraph

/-- Full characterization of `nm_insert_call` given the `last` node: append
`"("` to the caller's repr, push `last`, create the child under `last`
(registered under the fresh counter value), and file a `call` edge under
the record's own trial. -/
theorem nm_insert_call_eq {st : NMState} {a : Activation} {last : Nat} {ln : GNode}
    (hl : st.s.nodes.get? last = some ln) :
    nm_insert_call st a last = some (⟨{ st.s with
        nid := st.s.nid + 1
        stack := last :: st.s.stack
        nodes := (st.s.nodes.set last { ln with
            repr := ln.repr ++ "("
            children := ln.children ++ [st.s.nodes.length] }) ++
          [{ lnMerge (node0Of nmStratBase st.s.nid a) a with
              parent_index := (ln.index : Int)
              children_index := (ln.children.length : Int)
              repr := toString a.line ++ "-" ++ a.name }]
        matchTbl := alistUpd st.s.matchTbl (ln.index : Int) []
          (fun tbl => alistSet tbl (st.match_id + 1) st.s.nodes.length)
        edges := bump4 st.s.edges ln.index st.s.nid "call" a.trial_id 1 },
      st.match_id + 1⟩, st.s.nodes.length) := by
  have hlt : last < st.s.nodes.length := get?_lt_len hl
  have hg1 : ({ st.s with
      stack := last :: st.s.stack
      nodes := st.s.nodes.set last { ln with repr := ln.repr ++ "(" } } : BState Nat).nodes.get? last =
      some { ln with repr := ln.repr ++ "(" } := by
    show (st.s.nodes.set last { ln with repr := ln.repr ++ "(" }).get? last = _
    exact List.get?_set_eq_of_lt _ hlt
  rw [nm_insert_call, hl]
  simp only [Option.bind_eq_bind, Option.some_bind]
  rw [nm_insert_node_some_eq hg1]
  simp only [Option.bind_eq_bind, Option.some_bind]
  rw [List.set_set, List.length_set]
  have hs2 : ({ st.s with
      nid := st.s.nid + 1
      stack := last :: st.s.stack
      nodes := (st.s.nodes.set last { ln with
          repr := ln.repr ++ "("
          children := ln.children ++ [st.s.nodes.length] }) ++
        [{ lnMerge (node0Of nmStratBase st.s.nid a) a with
            parent_index := (ln.index : Int)
            children_index := (ln.children.length : Int)
            repr := toString a.line ++ "-" ++ a.name }]
      matchTbl := alistUpd st.s.matchTbl (ln.index : Int) []
        (fun tbl => alistSet tbl (st.match_id + 1) st.s.nodes.length) } :
      BState Nat).nodes.get? last = some { ln with
        repr := ln.repr ++ "("
        children := ln.children ++ [st.s.nodes.length] } := by
    show ((st.s.nodes.set last _) ++ [_]).get? last = _
    rw [get?_setApp _ _ hl hl]
    simp
  have ht2 : ({ st.s with
      nid := st.s.nid + 1
      stack := last :: st.s.stack
      nodes := (st.s.nodes.set last { ln with
          repr := ln.repr ++ "("
          children := ln.children ++ [st.s.nodes.length] }) ++
        [{ lnMerge (node0Of nmStratBase st.s.nid a) a with
            parent_index := (ln.index : Int)
            children_index := (ln.children.length : Int)
            repr := toString a.line ++ "-" ++ a.name }]
      matchTbl := alistUpd st.s.matchTbl (ln.index : Int) []
        (fun tbl => alistSet tbl (st.match_id + 1) st.s.nodes.length) } :
      BState Nat).nodes.get? st.s.nodes.length =
      some { lnMerge (node0Of nmStratBase st.s.nid a) a with
        parent_index := (ln.index : Int)
        children_index := (ln.children.length : Int)
        repr := toString a.line ++ "-" ++ a.name } := by
    exact get?_setApp_len last _ _
  dsimp only at hs2 ht2
  rw [add_edge_eq hs2 ht2 (by exact lnMerge_node0_trials nmStratBase st.s.nid a)]
  simp only [Option.some_bind]
  rfl

end TrialGraph

namespace TrialGraph

/-- `nm_insert_return` pops the stack top, emits a `return` edge and appends
the returned child's repr plus `")"` to the popped parent's repr. -/
theorem nm_insert_return_spec {st : NMState} {last x : Nat} {rest : List Nat}
    (hstk : st.s.stack = x :: rest) {lnn tn : GNode}
    (hll : st.s.nodes.get? last = some lnn) (hx : st.s.nodes.get? x = some tn)
    (htr : tn.trial_ids ≠ []) :
    ∃ st', nm_insert_return st last = some (st', x) ∧
      st'.s.stack = rest ∧ st'.s.matchTbl = st.s.matchTbl ∧
      st'.match_id = st.match_id ∧ st'.s.nid = st.s.nid ∧
      st'.s.nodes = st.s.nodes.set x { tn with repr := tn.repr ++ lnn.repr ++ ")" } := by
  rw [nm_insert_return, hstk]
  dsimp only
  obtain ⟨s1, he, hn1, hk1, hm1, hni1, hr1⟩ :=
    @add_edge_ok Nat _ { st.s with stack := rest } last x lnn tn hll hx htr "return" 1
  rw [he]
  simp only [Option.bind_eq_bind, Option.some_bind]
  rw [show s1.nodes.get? x = some tn from by rw [hn1]; exact hx]
  simp only [Option.bind_eq_bind, Option.some_bind]
  rw [show s1.nodes.get? last = some lnn from by rw [hn1]; exact hll]
  simp only [Option.bind_eq_bind, Option.some_bind]
  refine ⟨⟨{ s1 with nodes := s1.nodes.set x { tn with repr := tn.repr ++ lnn.repr ++ ")" } },
    st.match_id⟩, rfl, ?_, ?_, rfl, ?_, ?_⟩
  · show s1.stack = rest
    rw [hk1]
  · show s1.matchTbl = st.s.matchTbl
    rw [hm1]
  · show s1.nid = st.s.nid
    rw [hni1]
  · show s1.nodes.set x _ = st.s.nodes.set x _
    rw [hn1]


/-- Rewriting form of `nm_insert_sequence` when `last` has children (no repr
flush to the parent) and the match key misses. -/
theorem nm_insert_sequence_cons_eq {st : NMState} {a : Activation} {last : Nat}
    {ln : GNode} {pp : Nat} {pn : GNode} {c0 : Nat} {cs : List Nat}
    (hl : st.s.nodes.get? last = some ln) (hch : ln.children = c0 :: cs)
    (hpi : ln.parent_index = ((pp : Nat) : Int))
    (hpn : st.s.nodes.get? pp = some pn) (hplast : pp ≠ last)
    (hkeys : alistFind? (alistGetD st.s.matchTbl ln.parent_index []) (st.match_id + 1) = none) :
    nm_insert_sequence st a last = some (⟨{ st.s with
        nid := st.s.nid + 1
        nodes := (st.s.nodes.set pp { pn with
            children := pn.children ++ [st.s.nodes.length] }) ++
          [{ lnMerge (node0Of nmStratBase st.s.nid a) a with
              parent_index := (pn.index : Int)
              children_index := (pn.children.length : Int)
              repr := toString a.line ++ "-" ++ a.name }]
        matchTbl := alistUpd st.s.matchTbl (pn.index : Int) []
          (fun tbl => alistSet tbl (st.match_id + 1) st.s.nodes.length)
        edges := bump4 st.s.edges ln.index st.s.nid "sequence" a.trial_id 1 },
      st.match_id + 1⟩, st.s.nodes.length) := by
  have hpplt : pp < st.s.nodes.length := get?_lt_len hpn
  rw [nm_insert_sequence, hl]
  simp only [Option.bind_eq_bind, Option.some_bind]
  rw [show ln.children.isEmpty = false from by rw [hch]; rfl]
  simp only [Bool.false_eq_true, if_false, Option.pure_def, Option.bind_eq_bind,
    Option.some_bind]
  rw [hl]
  simp only [Option.bind_eq_bind, Option.some_bind]
  rw [hkeys, hpi, pyIdx_natCast hpplt]
  simp only [Option.bind_eq_bind, Option.some_bind]
  rw [nm_insert_node_some_eq hpn]
  simp only [Option.bind_eq_bind, Option.some_bind]
  have hs2 : ({ st.s with
      nid := st.s.nid + 1
      nodes := (st.s.nodes.set pp { pn with
          children := pn.children ++ [st.s.nodes.length] }) ++
        [{ lnMerge (node0Of nmStratBase st.s.nid a) a with
            parent_index := (pn.index : Int)
            children_index := (pn.children.length : Int)
            repr := toString a.line ++ "-" ++ a.name }]
      matchTbl := alistUpd st.s.matchTbl (pn.index : Int) []
        (fun tbl => alistSet tbl (st.match_id + 1) st.s.nodes.length) } :
      BState Nat).nodes.get? last = some ln := by
    show ((st.s.nodes.set pp _) ++ [_]).get? last = _
    rw [get?_setApp _ _ hpn hl, if_neg (fun hx => hplast hx.symm)]
  have ht2 : ({ st.s with
      nid := st.s.nid + 1
      nodes := (st.s.nodes.set pp { pn with
          children := pn.children ++ [st.s.nodes.length] }) ++
        [{ lnMerge (node0Of nmStratBase st.s.nid a) a with
            parent_index := (pn.index : Int)
            children_index := (pn.children.length : Int)
            repr := toString a.line ++ "-" ++ a.name }]
      matchTbl := alistUpd st.s.matchTbl (pn.index : Int) []
        (fun tbl => alistSet tbl (st.match_id + 1) st.s.nodes.length) } :
      BState Nat).nodes.get? st.s.nodes.length =
      some { lnMerge (node0Of nmStratBase st.s.nid a) a with
        parent_index := (pn.index : Int)
        children_index := (pn.children.length : Int)
        repr := toString a.line ++ "-" ++ a.name } := by
    exact get?_setApp_len pp _ _
  dsimp only at hs2 ht2
  rw [add_edge_eq hs2 ht2 (by exact lnMerge_node0_trials nmStratBase st.s.nid a)]
  simp only [Option.some_bind]
  rfl

/-- Rewriting form of `nm_insert_sequence` when `last` is a leaf: its repr plus
a comma are flushed onto the parent before the new sibling is created. -/
theorem nm_insert_sequence_nil_eq {st : NMState} {a : Activation} {last : Nat}
    {ln : GNode} {pp : Nat} {pn : GNode}
    (hl : st.s.nodes.get? last = some ln) (hch : ln.children = [])
    (hpi : ln.parent_index = ((pp : Nat) : Int))
    (hpn : st.s.nodes.get? pp = some pn) (hplast : pp ≠ last)
    (hkeys : alistFind? (alistGetD st.s.matchTbl ln.parent_index []) (st.match_id + 1) = none) :
    nm_insert_sequence st a last = some (⟨{ st.s with
        nid := st.s.nid + 1
        nodes := (st.s.nodes.set pp { pn with
            children := pn.children ++ [st.s.nodes.length]
            repr := pn.repr ++ ln.repr ++ "," }) ++
          [{ lnMerge (node0Of nmStratBase st.s.nid a) a with
              parent_index := (pn.index : Int)
              children_index := (pn.children.length : Int)
              repr := toString a.line ++ "-" ++ a.name }]
        matchTbl := alistUpd st.s.matchTbl (pn.index : Int) []
          (fun tbl => alistSet tbl (st.match_id + 1) st.s.nodes.length)
        edges := bump4 st.s.edges ln.index st.s.nid "sequence" a.trial_id 1 },
      st.match_id + 1⟩, st.s.nodes.length) := by
  have hpplt : pp < st.s.nodes.length := get?_lt_len hpn
  have hne : pp ≠ last := hplast
  rw [nm_insert_sequence, hl]
  simp only [Option.bind_eq_bind, Option.some_bind]
  rw [show ln.children.isEmpty = true from by rw [hch]; rfl]
  simp only [if_true, Option.bind_eq_bind, Option.some_bind]
  rw [hpi, pyIdx_natCast hpplt]
  simp only [Option.bind_eq_bind, Option.some_bind]
  rw [hpn]
  simp only [Option.pure_def, Option.bind_eq_bind, Option.some_bind]
  rw [show (st.s.nodes.set pp { pn with repr := pn.repr ++ ln.repr ++ "," }).get? last =
    some ln from by rw [List.get?_set_ne _ _ hne]; exact hl]
  simp only [Option.bind_eq_bind, Option.some_bind]
  rw [hkeys, List.length_set, hpi, pyIdx_natCast hpplt]
  simp only [Option.bind_eq_bind, Option.some_bind]
  have hgp : (st.s.nodes.set pp { pn with repr := pn.repr ++ ln.repr ++ "," }).get? pp =
      some { pn with repr := pn.repr ++ ln.repr ++ "," } :=
    List.get?_set_eq_of_lt _ hpplt
  rw [nm_insert_node_some_eq (s := { st.s with
    nodes := st.s.nodes.set pp { pn with repr := pn.repr ++ ln.repr ++ "," } }) hgp]
  simp only [Option.bind_eq_bind, Option.some_bind]
  rw [List.length_set, List.set_set]
  have hs2 : ({ st.s with
      nid := st.s.nid + 1
      nodes := (st.s.nodes.set pp { pn with
          children := pn.children ++ [st.s.nodes.length]
          repr := pn.repr ++ ln.repr ++ "," }) ++
        [{ lnMerge (node0Of nmStratBase st.s.nid a) a with
            parent_index := (pn.index : Int)
            children_index := (pn.children.length : Int)
            repr := toString a.line ++ "-" ++ a.name }]
      matchTbl := alistUpd st.s.matchTbl (pn.index : Int) []
        (fun tbl => alistSet tbl (st.match_id + 1) st.s.nodes.length) } :
      BState Nat).nodes.get? last = some ln := by
    show ((st.s.nodes.set pp _) ++ [_]).get? last = _
    rw [get?_setApp _ _ hpn hl, if_neg (fun hx => hplast hx.symm)]
  have ht2 : ({ st.s with
      nid := st.s.nid + 1
      nodes := (st.s.nodes.set pp { pn with
          children := pn.children ++ [st.s.nodes.length]
          repr := pn.repr ++ ln.repr ++ "," }) ++
        [{ lnMerge (node0Of nmStratBase st.s.nid a) a with
            parent_index := (pn.index : Int)
            children_index := (pn.children.length : Int)
            repr := toString a.line ++ "-" ++ a.name }]
      matchTbl := alistUpd st.s.matchTbl (pn.index : Int) []
        (fun tbl => alistSet tbl (st.match_id + 1) st.s.nodes.length) } :
      BState Nat).nodes.get? st.s.nodes.length =
      some { lnMerge (node0Of nmStratBase st.s.nid a) a with
        parent_index := (pn.index : Int)
        children_index := (pn.children.length : Int)
        repr := toString a.line ++ "-" ++ a.name } := by
    exact get?_setApp_len pp _ _
  dsimp only at hs2 ht2
  rw [add_edge_eq hs2 ht2 (by exact lnMerge_node0_trials nmStratBase st.s.nid a)]
  simp only [Option.some_bind]
  rfl

/-- `NInvB` only depends on the `nid`, `nodes` and `matchTbl` fields. -/
theorem NInvB_reframe {s t : BState Nat} {mid : Nat} (h : NInvB s mid)
    (hn : t.nodes = s.nodes) (hni : t.nid = s.nid) (hm : t.matchTbl = s.matchTbl) :
    NInvB t mid := by
  refine ⟨?_, ?_, ?_, ?_, ?_, ?_, ?_⟩
  · rw [hn, hni]
    exact h.nid_eq
  · rw [hn]
    exact h.idx_inv
  · rw [hn]
    exact h.trial_ne
  · rw [hn]
    exact h.parent_ok
  · rw [hn]
    exact h.child_lt
  · rw [hn]
    exact h.child_sorted
  · rw [hm]
    exact h.mkeys

/-- `StackCorr` forces the concrete and abstract stacks to have the same
length. -/
theorem StackCorr_length {s : BState Nat} {vstk : List Nat}
    (h : StackCorr s vstk) : s.stack.length = vstk.length :=
  List.Forall₂.length_eq h

/-- Caller-ids of existing nodes survive the set-and-append node-list shape
of a parented insert. -/
theorem cidStable_setApp {l : List GNode} {p : Nat} {pn : GNode} (pn' nn : GNode)
    (hg : l.get? p = some pn) (hcid : pn'.caller_id = pn.caller_id) :
    ∀ {j : Nat} {m : GNode}, l.get? j = some m →
      ∃ m2, ((l.set p pn') ++ [nn]).get? j = some m2 ∧ m2.caller_id = m.caller_id := by
  intro j m hj
  rw [get?_setApp pn' nn hg hj]
  by_cases hjp : j = p
  · subst hjp
    rw [hj] at hg
    cases hg
    exact ⟨pn', by rw [if_pos rfl], hcid⟩
  · exact ⟨m, by rw [if_neg hjp], rfl⟩

/-- Every position below the length holds a node. -/
theorem get?_some_of_lt {γ : Type} {l : List γ} {i : Nat} (h : i < l.length) :
    ∃ n, l.get? i = some n := by
  cases hg : l.get? i with
  | none => exact absurd hg (by rw [List.get?_eq_none]; omega)
  | some n => exact ⟨n, rfl⟩

/-- Under the match-key bound of `NInvB`, the fresh counter value misses
every per-parent match table. -/
theorem mkeys_miss {s : BState Nat} {mid : Nat} (hb : NInvB s mid) (k : Int) :
    alistFind? (alistGetD s.matchTbl k []) (mid + 1) = none := by
  cases hf : alistFind? s.matchTbl k with
  | none => rw [alistGetD, hf]; rfl
  | some tbl0 =>
    rw [alistGetD, hf]
    exact alistFind?_counter_miss fun kv hkv => hb.mkeys _ (alistFind?_mem hf) kv hkv

/-- One abstract step of caller-id validity: the new stack (the new `last`
caller-id is always the record caller-id itself). -/
def vStep (stk : List Nat) (last? : Option Nat) (c : Nat) : Option (List Nat) :=
  if c = 0 then some stk
  else
    match last? with
    | none => none
    | some l =>
      if l < c then some (l :: stk)
      else
        match popTo c stk l with
        | none => none
        | some (stk2, cur) => if c = cur then some stk2 else none

/-- `validFrom` unfolds record by record through `vStep`. -/
theorem validFrom_cons {stk : List Nat} {last? : Option Nat} {c : Nat}
    {rest : List Nat} (h : validFrom stk last? (c :: rest) = true) :
    ∃ stk2, vStep stk last? c = some stk2 ∧ validFrom stk2 (some c) rest = true := by
  rw [validFrom.eq_def] at h
  dsimp only at h
  rw [vStep.eq_def]
  by_cases hc : c = 0
  · subst hc
    rw [if_pos rfl] at h ⊢
    exact ⟨stk, rfl, h⟩
  · rw [if_neg hc] at h ⊢
    cases last? with
    | none => cases h
    | some l =>
      dsimp only at h ⊢
      by_cases hl : l < c
      · rw [if_pos hl] at h ⊢
        exact ⟨l :: stk, rfl, h⟩
      · rw [if_neg hl] at h ⊢
        cases hp : popTo c stk l with
        | none => rw [hp] at h; cases h
        | some q =>
          rw [hp] at h
          obtain ⟨s2, cur⟩ := q
          dsimp only at h ⊢
          by_cases hcq : c = cur
          · rw [if_pos hcq] at h ⊢
            exact ⟨s2, rfl, h⟩
          · rw [if_neg hcq] at h
            cases h

end TrialGraph

namespace TrialGraph

/-- Inversion of `StackCorr` on a non-empty abstract stack. -/
theorem StackCorr_cons {s : BState Nat} {t : Nat} {vrest : List Nat}
    (h : StackCorr s (t :: vrest)) :
    ∃ x xs tn, s.stack = x :: xs ∧ s.nodes.get? x = some tn ∧ tn.caller_id = t ∧
      List.Forall₂ (fun y c => ∃ n, s.nodes.get? y = some n ∧ n.caller_id = c) xs vrest := by
  have h' : List.Forall₂ (fun y c => ∃ n, s.nodes.get? y = some n ∧ n.caller_id = c)
      s.stack (t :: vrest) := h
  cases hstk : s.stack with
  | nil =>
    rw [hstk] at h'
    cases h'
  | cons x xs =>
    rw [hstk] at h'
    cases h' with
    | cons hx htail =>
      obtain ⟨tn, hg, hcid⟩ := hx
      exact ⟨x, xs, tn, rfl, hg, hcid, htail⟩

/-- The pop loop realizes the abstract `popTo`: it succeeds, pops exactly the
same abstract suffix, creates no nodes, keeps the counter, and lands on a
node whose caller-id is `popTo`'s result. -/
theorem nmPopLoop_spec :
    ∀ (fuel : Nat) (vstk : List Nat) (st : NMState) (last : Nat) (ln : GNode)
      (c : Nat) (vstk2 : List Nat) (cur : Nat),
      vstk.length < fuel →
      NInvB st.s st.match_id → StackCorr st.s vstk →
      st.s.nodes.get? last = some ln →
      popTo c vstk ln.caller_id = some (vstk2, cur) →
      ∃ st1 last1 ln1, nmPopLoop fuel c st last = some (st1, last1) ∧
        st1.s.nodes.get? last1 = some ln1 ∧ ln1.caller_id = cur ∧
        NInvB st1.s st1.match_id ∧ StackCorr st1.s vstk2 ∧
        st1.match_id = st.match_id ∧
        st1.s.nodes.length = st.s.nodes.length := by
  intro fuel
  induction fuel with
  | zero =>
    intro vstk st last ln c vstk2 cur hfu
    exact absurd hfu (by omega)
  | succ fuel ih =>
    intro vstk st last ln c vstk2 cur hfu hb hsc hl hpop
    rw [nmPopLoop, hl]
    dsimp only
    by_cases hlt : c < ln.caller_id
    · rw [if_pos hlt]
      rw [popTo.eq_def] at hpop
      dsimp only at hpop
      rw [if_pos hlt] at hpop
      cases vstk with
      | nil => cases hpop
      | cons t vrest =>
        obtain ⟨x, xs, tn, hstk, hx, hcid, htail⟩ := StackCorr_cons hsc
        have htr : tn.trial_ids ≠ [] := hb.trial_ne tn (List.get?_mem hx)
        obtain ⟨st', hret, hstk', hmt', hmid', hnid', hnodes'⟩ :=
          nm_insert_return_spec hstk hl hx htr
        rw [hret]
        have hxlt : x < st.s.nodes.length := get?_lt_len hx
        have hx' : st'.s.nodes.get? x = some { tn with repr := tn.repr ++ ln.repr ++ ")" } := by
          rw [hnodes']
          exact List.get?_set_eq_of_lt _ hxlt
        have hbset : NInvB { st.s with
            nodes := st.s.nodes.set x { tn with repr := tn.repr ++ ln.repr ++ ")" } } st.match_id :=
          NInvB_set hb hx rfl rfl rfl rfl (fun h => h)
        have hb' : NInvB st'.s st'.match_id := by
          rw [hmid']
          refine NInvB_reframe hbset ?_ ?_ ?_
          · rw [hnodes']
          · rw [hnid']
          · rw [hmt']
        have hsc' : StackCorr st'.s vrest := by
          rw [StackCorr, hstk']
          refine List.Forall₂.imp ?_ htail
          rintro y d ⟨n, hgy, hcy⟩
          obtain ⟨m2, hm2, hcm2⟩ := cidStable_set hx
            (show ({ tn with repr := tn.repr ++ ln.repr ++ ")" } : GNode).caller_id = tn.caller_id
              from rfl) hgy
          refine ⟨m2, ?_, by rw [hcm2, hcy]⟩
          rw [hnodes']
          exact hm2
        have hpop' : popTo c vrest ({ tn with repr := tn.repr ++ ln.repr ++ ")" } : GNode).caller_id =
            some (vstk2, cur) := by
          show popTo c vrest tn.caller_id = _
          rw [hcid]
          exact hpop
        obtain ⟨st1, last1, ln1, hloop, hl1, hc1, hb1, hsc1, hmid1, hlen1⟩ :=
          ih vrest st' x _ c vstk2 cur (by simp at hfu ⊢; omega) hb' hsc' hx' hpop'
        refine ⟨st1, last1, ln1, hloop, hl1, hc1, hb1, hsc1, ?_, ?_⟩
        · rw [hmid1, hmid']
        · rw [hlen1, hnodes']
          simp
    · rw [if_neg hlt]
      rw [popTo.eq_def] at hpop
      dsimp only at hpop
      rw [if_neg hlt] at hpop
      cases hpop
      exact ⟨st, last, ln, rfl, hl, rfl, hb, hsc, rfl, rfl⟩

end TrialGraph

namespace TrialGraph

/-- Bundled facts about `nm_insert_first`: one node is appended, invariants
survive, the stack is untouched and the new node carries the record's
caller-id. -/
theorem nm_first_ok {st : NMState} {a : Activation} (hb : NInvB st.s st.match_id)
    (hc0 : a.caller_id = 0) :
    ∃ st', nm_insert_first st a = some (st', st.s.nodes.length) ∧
      st'.s.nodes.length = st.s.nodes.length + 1 ∧
      NInvB st'.s st'.match_id ∧
      st'.s.stack = st.s.stack ∧
      (∀ {j : Nat} {m : GNode}, st.s.nodes.get? j = some m →
        ∃ m2, st'.s.nodes.get? j = some m2 ∧ m2.caller_id = m.caller_id) ∧
      ∃ nn, st'.s.nodes.get? st.s.nodes.length = some nn ∧ nn.caller_id = a.caller_id := by
  rw [nm_insert_first_eq]
  refine ⟨_, rfl, by simp, ?_, rfl, ?_, ?_⟩
  · show NInvB _ st.match_id
    refine NInvB_reframe (s := { st.s with
      nid := st.s.nid + 1
      nodes := st.s.nodes ++ [{ lnMerge (node0Of nmStratBase st.s.nid a) a with
        repr := toString a.line ++ "-" ++ a.name }] })
      (NInvB_app hb ?_ ?_ rfl ?_) rfl rfl rfl
    · show st.s.nid = st.s.nodes.length
      exact hb.nid_eq
    · show (lnMerge (node0Of nmStratBase st.s.nid a) a).trial_ids ≠ []
      rw [lnMerge_node0_trials]
      simp
    · intro hcn
      exact absurd hc0 hcn
  · intro j m hj
    exact ⟨m, get?_app _ hj, rfl⟩
  · exact ⟨{ lnMerge (node0Of nmStratBase st.s.nid a) a with
      repr := toString a.line ++ "-" ++ a.name }, List.get?_concat_length _ _, rfl⟩

/-- Bundled facts about `nm_insert_call`: one node is appended, invariants
survive at the bumped counter, `last` is pushed and the new node carries the
record's caller-id. -/
theorem nm_call_ok {st : NMState} {a : Activation} {last : Nat} {ln : GNode}
    (hb : NInvB st.s st.match_id) (hl : st.s.nodes.get? last = some ln) :
    ∃ st', nm_insert_call st a last = some (st', st.s.nodes.length) ∧
      st'.s.nodes.length = st.s.nodes.length + 1 ∧
      NInvB st'.s st'.match_id ∧
      st'.s.stack = last :: st.s.stack ∧
      (∀ {j : Nat} {m : GNode}, st.s.nodes.get? j = some m →
        ∃ m2, st'.s.nodes.get? j = some m2 ∧ m2.caller_id = m.caller_id) ∧
      ∃ nn, st'.s.nodes.get? st.s.nodes.length = some nn ∧ nn.caller_id = a.caller_id := by
  have hlt : last < st.s.nodes.length := get?_lt_len hl
  have hbset : NInvB { st.s with
      nodes := st.s.nodes.set last { ln with repr := ln.repr ++ "(" } } st.match_id :=
    NInvB_set hb hl rfl rfl rfl rfl (fun h => h)
  have hg0 : ({ st.s with
      nodes := st.s.nodes.set last { ln with repr := ln.repr ++ "(" } } :
      BState Nat).nodes.get? last = some { ln with repr := ln.repr ++ "(" } := by
    show (st.s.nodes.set last _).get? last = _
    exact List.get?_set_eq_of_lt _ hlt
  have hshape : NInvB { st.s with
      nid := st.s.nid + 1
      nodes := ((st.s.nodes.set last { ln with repr := ln.repr ++ "(" }).set last
          { { ln with repr := ln.repr ++ "(" } with
            children := ({ ln with repr := ln.repr ++ "(" } : GNode).children ++
              [(st.s.nodes.set last { ln with repr := ln.repr ++ "(" }).length] }) ++
        [{ lnMerge (node0Of nmStratBase st.s.nid a) a with
            parent_index := (({ ln with repr := ln.repr ++ "(" } : GNode).index : Int)
            children_index := (({ ln with repr := ln.repr ++ "(" } : GNode).children.length : Int)
            repr := toString a.line ++ "-" ++ a.name }]
      matchTbl := alistUpd st.s.matchTbl
        ((({ ln with repr := ln.repr ++ "(" } : GNode).index : Int)) []
        (fun tbl => alistSet tbl (st.match_id + 1)
          (st.s.nodes.set last { ln with repr := ln.repr ++ "(" }).length) }
      (st.match_id + 1) := by
    refine NInvB_reframe (NInvB_insert_shape hbset hg0 ?_ ?_ rfl rfl (Nat.le_succ _)
      (le_refl _)) rfl rfl rfl
    · show st.s.nid = (st.s.nodes.set last { ln with repr := ln.repr ++ "(" }).length
      rw [List.length_set]
      exact hb.nid_eq
    · show (lnMerge (node0Of nmStratBase st.s.nid a) a).trial_ids ≠ []
      rw [lnMerge_node0_trials]
      simp
  rw [nm_insert_call_eq hl]
  refine ⟨_, rfl, by simp, ?_, rfl, ?_, ?_⟩
  · show NInvB _ (st.match_id + 1)
    refine NInvB_reframe hshape ?_ ?_ ?_
    · show (st.s.nodes.set last { ln with
          repr := ln.repr ++ "("
          children := ln.children ++ [st.s.nodes.length] }) ++ [_] = _
      rw [List.set_set, List.length_set]
    · rfl
    · dsimp only
      rw [List.length_set]
  · intro j m hj
    exact cidStable_setApp _ _ hl
      (show ({ ln with
          repr := ln.repr ++ "("
          children := ln.children ++ [st.s.nodes.length] } : GNode).caller_id = ln.caller_id
        from rfl) hj
  · exact ⟨{ lnMerge (node0Of nmStratBase st.s.nid a) a with
      parent_index := (ln.index : Int)
      children_index := (ln.children.length : Int)
      repr := toString a.line ++ "-" ++ a.name }, get?_setApp_len last _ _, rfl⟩

end TrialGraph

namespace TrialGraph

/-- Bundled facts about `nm_insert_sequence` under the traversal invariants:
the fresh counter never matches, so a new sibling node is always appended;
invariants survive at the bumped counter, the stack is untouched and the new
node carries the record's caller-id. -/
theorem nm_seq_ok {st : NMState} {a : Activation} {last : Nat} {ln : GNode}
    (hb : NInvB st.s st.match_id) (hl : st.s.nodes.get? last = some ln)
    (hcid : ln.caller_id ≠ 0) :
    ∃ st', nm_insert_sequence st a last = some (st', st.s.nodes.length) ∧
      st'.s.nodes.length = st.s.nodes.length + 1 ∧
      NInvB st'.s st'.match_id ∧
      st'.s.stack = st.s.stack ∧
      (∀ {j : Nat} {m : GNode}, st.s.nodes.get? j = some m →
        ∃ m2, st'.s.nodes.get? j = some m2 ∧ m2.caller_id = m.caller_id) ∧
      ∃ nn, st'.s.nodes.get? st.s.nodes.length = some nn ∧ nn.caller_id = a.caller_id := by
  obtain ⟨pp, hpi, hpplt⟩ := hb.parent_ok last ln hl hcid
  have hlast_lt : last < st.s.nodes.length := get?_lt_len hl
  have hpp_lt : pp < st.s.nodes.length := by omega
  obtain ⟨pn, hpn⟩ := get?_some_of_lt hpp_lt
  have hplast : pp ≠ last := by omega
  have hkeys : alistFind? (alistGetD st.s.matchTbl ln.parent_index []) (st.match_id + 1) = none :=
    mkeys_miss hb ln.parent_index
  cases hch : ln.children with
  | cons c0 cs =>
    rw [nm_insert_sequence_cons_eq hl hch hpi hpn hplast hkeys]
    have hshape : NInvB { st.s with
        nid := st.s.nid + 1
        nodes := (st.s.nodes.set pp { pn with children := pn.children ++ [st.s.nodes.length] }) ++
          [{ lnMerge (node0Of nmStratBase st.s.nid a) a with
              parent_index := (pn.index : Int)
              children_index := (pn.children.length : Int)
              repr := toString a.line ++ "-" ++ a.name }]
        matchTbl := alistUpd st.s.matchTbl (pn.index : Int) []
          (fun tbl => alistSet tbl (st.match_id + 1) st.s.nodes.length) } (st.match_id + 1) := by
      refine NInvB_insert_shape hb hpn ?_ ?_ rfl rfl (Nat.le_succ _) (le_refl _)
      · show st.s.nid = st.s.nodes.length
        exact hb.nid_eq
      · show (lnMerge (node0Of nmStratBase st.s.nid a) a).trial_ids ≠ []
        rw [lnMerge_node0_trials]
        simp
    refine ⟨_, rfl, by simp, ?_, rfl, ?_, ?_⟩
    · exact NInvB_reframe hshape rfl rfl rfl
    · intro j m hj
      exact cidStable_setApp _ _ hpn
        (show ({ pn with children := pn.children ++ [st.s.nodes.length] } : GNode).caller_id =
          pn.caller_id from rfl) hj
    · exact ⟨{ lnMerge (node0Of nmStratBase st.s.nid a) a with
        parent_index := (pn.index : Int)
        children_index := (pn.children.length : Int)
        repr := toString a.line ++ "-" ++ a.name }, get?_setApp_len pp _ _, rfl⟩
  | nil =>
    rw [nm_insert_sequence_nil_eq hl hch hpi hpn hplast hkeys]
    have hbset : NInvB { st.s with
        nodes := st.s.nodes.set pp { pn with repr := pn.repr ++ ln.repr ++ "," } } st.match_id :=
      NInvB_set hb hpn rfl rfl rfl rfl (fun h => h)
    have hg0 : ({ st.s with
        nodes := st.s.nodes.set pp { pn with repr := pn.repr ++ ln.repr ++ "," } } :
        BState Nat).nodes.get? pp = some { pn with repr := pn.repr ++ ln.repr ++ "," } := by
      show (st.s.nodes.set pp _).get? pp = _
      exact List.get?_set_eq_of_lt _ hpp_lt
    have hshape : NInvB { st.s with
        nid := st.s.nid + 1
        nodes := ((st.s.nodes.set pp { pn with repr := pn.repr ++ ln.repr ++ "," }).set pp
            { { pn with repr := pn.repr ++ ln.repr ++ "," } with
              children := ({ pn with repr := pn.repr ++ ln.repr ++ "," } : GNode).children ++
                [(st.s.nodes.set pp { pn with repr := pn.repr ++ ln.repr ++ "," }).length] }) ++
          [{ lnMerge (node0Of nmStratBase st.s.nid a) a with
              parent_index := (({ pn with repr := pn.repr ++ ln.repr ++ "," } : GNode).index : Int)
              children_index := (({ pn with repr := pn.repr ++ ln.repr ++ "," } : GNode).children.length : Int)
              repr := toString a.line ++ "-" ++ a.name }]
        matchTbl := alistUpd st.s.matchTbl
          ((({ pn with repr := pn.repr ++ ln.repr ++ "," } : GNode).index : Int)) []
          (fun tbl => alistSet tbl (st.match_id + 1)
            (st.s.nodes.set pp { pn with repr := pn.repr ++ ln.repr ++ "," }).length) }
        (st.match_id + 1) := by
      refine NInvB_reframe (NInvB_insert_shape hbset hg0 ?_ ?_ rfl rfl (Nat.le_succ _)
        (le_refl _)) rfl rfl rfl
      · show st.s.nid = (st.s.nodes.set pp { pn with repr := pn.repr ++ ln.repr ++ "," }).length
        rw [List.length_set]
        exact hb.nid_eq
      · show (lnMerge (node0Of nmStratBase st.s.nid a) a).trial_ids ≠ []
        rw [lnMerge_node0_trials]
        simp
    refine ⟨_, rfl, by simp, ?_, rfl, ?_, ?_⟩
    · refine NInvB_reframe hshape ?_ ?_ ?_
      · show (st.s.nodes.set pp { pn with
            children := pn.children ++ [st.s.nodes.length]
            repr := pn.repr ++ ln.repr ++ "," }) ++ [_] = _
        rw [List.set_set, List.length_set]
      · rfl
      · dsimp only
        rw [List.length_set]
    · intro j m hj
      exact cidStable_setApp _ _ hpn
        (show ({ pn with
            children := pn.children ++ [st.s.nodes.length]
            repr := pn.repr ++ ln.repr ++ "," } : GNode).caller_id = pn.caller_id from rfl) hj
    · exact ⟨{ lnMerge (node0Of nmStratBase st.s.nid a) a with
        parent_index := (pn.index : Int)
        children_index := (pn.children.length : Int)
        repr := toString a.line ++ "-" ++ a.name }, get?_setApp_len pp _ _, rfl⟩

end TrialGraph

namespace TrialGraph

/-- One traversal step under a valid abstract step: it succeeds, appends
exactly one node, and re-establishes the invariants with the new node (whose
caller-id is the record's) as the cursor. -/
theorem nmStep_ok {st : NMState} {last? : Option Nat} {a : Activation}
    {vstk : List Nat} {vlast : Option Nat} {stk2 : List Nat}
    (hb : NInvB st.s st.match_id) (hsc : StackCorr st.s vstk)
    (hlc : LastCorr st.s last? vlast)
    (hv : vStep vstk vlast a.caller_id = some stk2) :
    ∃ st' l', nmStep st last? a = some (st', some l') ∧
      st'.s.nodes.length = st.s.nodes.length + 1 ∧
      NInvB st'.s st'.match_id ∧ StackCorr st'.s stk2 ∧
      ∃ n, st'.s.nodes.get? l' = some n ∧ n.caller_id = a.caller_id := by
  rw [vStep.eq_def] at hv
  rw [nmStep.eq_def]
  by_cases hc0 : a.caller_id = 0
  · rw [if_pos hc0] at hv ⊢
    cases hv
    obtain ⟨st', heq, hlen, hb', hstk', hstab, hn⟩ := nm_first_ok hb hc0
    rw [heq]
    simp only [Option.bind_eq_bind, Option.some_bind]
    refine ⟨st', st.s.nodes.length, rfl, hlen, hb', ?_, hn⟩
    exact StackCorr_mono hstk' (fun h => hstab h) hsc
  · rw [if_neg hc0] at hv ⊢
    cases vlast with
    | none => cases hv
    | some l =>
      dsimp only at hv
      rcases hlc with ⟨h1, h2⟩ | ⟨last, c, ln, hlq, hveq, hln, hlncid⟩
      · cases h2
      · rw [Option.some_inj] at hveq
        subst hveq
        rw [hlq]
        dsimp only
        rw [hln]
        simp only [Option.bind_eq_bind, Option.some_bind]
        by_cases hlt : l < a.caller_id
        · rw [if_pos hlt] at hv
          cases hv
          rw [if_pos (show ln.caller_id < a.caller_id by rw [hlncid]; exact hlt)]
          obtain ⟨st', heq, hlen, hb', hstk', hstab, hn⟩ := nm_call_ok hb hln
          rw [heq]
          simp only [Option.bind_eq_bind, Option.some_bind]
          refine ⟨st', st.s.nodes.length, rfl, hlen, hb', ?_, hn⟩
          show List.Forall₂ _ st'.s.stack (l :: vstk)
          rw [hstk']
          refine List.Forall₂.cons ?_ ?_
          · obtain ⟨m2, hm2, hcm2⟩ := hstab hln
            exact ⟨m2, hm2, by rw [hcm2, hlncid]⟩
          · refine List.Forall₂.imp ?_ hsc
            rintro y d ⟨n, hgy, hcy⟩
            obtain ⟨m2, hm2, hcm2⟩ := hstab hgy
            exact ⟨m2, hm2, by rw [hcm2, hcy]⟩
        · rw [if_neg hlt] at hv
          rw [if_neg (show ¬ ln.caller_id < a.caller_id by rw [hlncid]; exact hlt)]
          cases hp : popTo a.caller_id vstk l with
          | none => rw [hp] at hv; cases hv
          | some q =>
            rw [hp] at hv
            obtain ⟨stk0, cur⟩ := q
            dsimp only at hv
            by_cases hcq : a.caller_id = cur
            · rw [if_pos hcq] at hv
              cases hv
              have hplen : vstk.length < st.s.stack.length + 1 := by
                rw [StackCorr_length hsc]
                omega
              have hpq : popTo a.caller_id vstk ln.caller_id = some (stk2, cur) := by
                rw [hlncid]
                exact hp
              obtain ⟨st1, last1, ln1, hloop, hl1, hc1, hb1, hsc1, hmid1, hlen1⟩ :=
                nmPopLoop_spec (st.s.stack.length + 1) vstk st last ln a.caller_id stk2 cur
                  hplen hb hsc hln hpq
              rw [hloop]
              simp only [Option.bind_eq_bind, Option.some_bind]
              rw [hl1]
              simp only [Option.bind_eq_bind, Option.some_bind]
              rw [if_pos (show a.caller_id = ln1.caller_id by rw [hc1]; exact hcq)]
              have hcidn0 : ln1.caller_id ≠ 0 := by
                rw [hc1, ← hcq]
                exact hc0
              obtain ⟨st2, heq2, hlen2, hb2, hstk2, hstab2, hn2⟩ := nm_seq_ok hb1 hl1 hcidn0
              rw [heq2]
              simp only [Option.bind_eq_bind, Option.some_bind]
              refine ⟨st2, st1.s.nodes.length, rfl, by rw [hlen2, hlen1], hb2, ?_, hn2⟩
              show List.Forall₂ _ st2.s.stack stk2
              rw [hstk2]
              refine List.Forall₂.imp ?_ hsc1
              rintro y d ⟨n, hgy, hcy⟩
              obtain ⟨m2, hm2, hcm2⟩ := hstab2 hgy
              exact ⟨m2, hm2, by rw [hcm2, hcy]⟩
            · rw [if_neg hcq] at hv
              cases hv

end TrialGraph

namespace TrialGraph

/-- The record loop on a valid preorder suffix: it succeeds and appends
exactly one node per record, re-establishing the invariants. -/
theorem nmRunLoop_spec :
    ∀ (pre : List Activation) (st : NMState) (last? : Option Nat) (vstk : List Nat)
      (vlast : Option Nat),
      NInvB st.s st.match_id → StackCorr st.s vstk → LastCorr st.s last? vlast →
      (last? = none → st.s.stack = []) →
      validFrom vstk vlast (pre.map (fun x => x.caller_id)) = true →
      ∃ st2 l2 vstk2 vlast2, nmRunLoop st last? pre = some (st2, l2) ∧
        st2.s.nodes.length = st.s.nodes.length + pre.length ∧
        NInvB st2.s st2.match_id ∧ StackCorr st2.s vstk2 ∧ LastCorr st2.s l2 vlast2 ∧
        (l2 = none → st2.s.stack = []) := by
  intro pre
  induction pre with
  | nil =>
    intro st last? vstk vlast hb hsc hlc hinit hv
    exact ⟨st, last?, vstk, vlast, rfl, by simp, hb, hsc, hlc, hinit⟩
  | cons a rest ih =>
    intro st last? vstk vlast hb hsc hlc hinit hv
    rw [List.map_cons] at hv
    obtain ⟨stk2, hstep, hv2⟩ := validFrom_cons hv
    obtain ⟨st', l', heq, hlen, hb', hsc', hn⟩ := nmStep_ok hb hsc hlc hstep
    rw [nmRunLoop, heq]
    simp only [Option.bind_eq_bind, Option.some_bind]
    obtain ⟨n, hgn, hcn⟩ := hn
    have hlc' : LastCorr st'.s (some l') (some a.caller_id) :=
      Or.inr ⟨l', a.caller_id, n, rfl, rfl, hgn, hcn⟩
    obtain ⟨st2, l2, vstk2, vlast2, hrun, hlen2, hb2, hsc2, hlc2, himpl⟩ :=
      ih st' (some l') stk2 (some a.caller_id) hb' hsc' hlc' (by intro h; cases h) hv2
    exact ⟨st2, l2, vstk2, vlast2, hrun,
      by rw [hlen2, hlen, List.length_cons]; omega, hb2, hsc2, hlc2, himpl⟩

end TrialGraph

namespace TrialGraph

/-- The end-of-input drain succeeds under the invariants and creates no
nodes. -/
theorem nmDrainLoop_spec :
    ∀ (fuel : Nat) (vstk : List Nat) (st : NMState) (last : Nat) (ln : GNode),
      vstk.length < fuel →
      NInvB st.s st.match_id → StackCorr st.s vstk →
      st.s.nodes.get? last = some ln →
      ∃ st1 l1, nmDrainLoop fuel st last = some (st1, l1) ∧
        st1.s.nodes.length = st.s.nodes.length := by
  intro fuel
  induction fuel with
  | zero =>
    intro vstk st last ln hfu
    exact absurd hfu (by omega)
  | succ fuel ih =>
    intro vstk st last ln hfu hb hsc hl
    rw [nmDrainLoop]
    cases hstk : st.s.stack with
    | nil => exact ⟨st, last, rfl, rfl⟩
    | cons x xs =>
      cases vstk with
      | nil =>
        have hle := StackCorr_length hsc
        rw [hstk] at hle
        simp at hle
      | cons t vrest =>
        have hsc2 : List.Forall₂
            (fun y c => ∃ n, st.s.nodes.get? y = some n ∧ n.caller_id = c)
            (x :: xs) (t :: vrest) := by
          rw [← hstk]
          exact hsc
        cases hsc2 with
        | cons hx htail =>
          obtain ⟨tn, hx, hcidt⟩ := hx
          have htr : tn.trial_ids ≠ [] := hb.trial_ne tn (List.get?_mem hx)
          obtain ⟨st', hret, hstk2, hmt', hmid', hnid', hnodes'⟩ :=
            nm_insert_return_spec hstk hl hx htr
          rw [hret]
          have hxlt : x < st.s.nodes.length := get?_lt_len hx
          have hx' : st'.s.nodes.get? x =
              some { tn with repr := tn.repr ++ ln.repr ++ ")" } := by
            rw [hnodes']
            exact List.get?_set_eq_of_lt _ hxlt
          have hbset : NInvB { st.s with
              nodes := st.s.nodes.set x { tn with repr := tn.repr ++ ln.repr ++ ")" } }
              st.match_id :=
            NInvB_set hb hx rfl rfl rfl rfl (fun h => h)
          have hb' : NInvB st'.s st'.match_id := by
            rw [hmid']
            refine NInvB_reframe hbset ?_ ?_ ?_
            · rw [hnodes']
            · rw [hnid']
            · rw [hmt']
          have hsc' : StackCorr st'.s vrest := by
            rw [StackCorr, hstk2]
            refine List.Forall₂.imp ?_ htail
            rintro y d ⟨n, hgy, hcy⟩
            obtain ⟨m2, hm2, hcm2⟩ := cidStable_set hx
              (show ({ tn with repr := tn.repr ++ ln.repr ++ ")" } : GNode).caller_id =
                tn.caller_id from rfl) hgy
            refine ⟨m2, ?_, by rw [hcm2, hcy]⟩
            rw [hnodes']
            exact hm2
          obtain ⟨st1, l1, hloop, hlen1⟩ := ih vrest st' x _
            (by simp at hfu; omega) hb' hsc' hx'
          refine ⟨st1, l1, hloop, ?_⟩
          rw [hlen1, hnodes']
          simp

/-- The traversal invariants hold at the initial summarization state. -/
theorem NInvB_init : NInvB (initState : BState Nat) 0 := by
  refine ⟨rfl, ?_, ?_, ?_, ?_, ?_, ?_⟩
  · intro i n h
    simp [initState] at h
  · intro n hn
    simp [initState] at hn
  · intro i n h
    simp [initState] at h
  · intro n hn
    simp [initState] at hn
  · intro n hn
    simp [initState] at hn
  · intro pr hpr
    simp [initState] at hpr

end TrialGraph

namespace TrialGraph

/-- C4: on every valid preorder the `NoMatchSummarization` traversal
succeeds and produces exactly one node per input record — the strictly
increasing `match_id` counter never matches an existing key, so the sibling
lookup in `insert_sequence` never merges. -/
theorem C4_nomatch_counts {pre : List Activation} (h : validPre pre = true) :
    ∃ st, nmCall pre = some st ∧ st.s.nodes.length = pre.length := by
  rw [validPre] at h
  obtain ⟨st2, l2, vstk2, vlast2, hrun, hlen2, hb2, hsc2, hlc2, himpl⟩ :=
    nmRunLoop_spec pre ⟨initState, 0⟩ none [] none NInvB_init List.Forall₂.nil
      (Or.inl ⟨rfl, rfl⟩) (fun _ => rfl) h
  rw [nmCall, hrun]
  simp only [Option.bind_eq_bind, Option.some_bind]
  have hlen0 : st2.s.nodes.length = pre.length := by
    rw [hlen2]
    simp [initState]
  cases hstk : st2.s.stack with
  | nil =>
    exact ⟨st2, rfl, hlen0⟩
  | cons x xs =>
    dsimp only
    cases hl2 : l2 with
    | none =>
      rw [hl2] at himpl
      rw [himpl rfl] at hstk
      cases hstk
    | some last =>
      rcases hlc2 with ⟨h1, _⟩ | ⟨lx, cx, nx, hlx, hvx, hgx, hcx⟩
      · rw [hl2] at h1
        cases h1
      · rw [hl2] at hlx
        rw [Option.some_inj] at hlx
        subst hlx
        obtain ⟨st3, l3, hdrain, hlen3⟩ :=
          nmDrainLoop_spec (st2.s.stack.length + 1) vstk2 st2 last nx
            (by rw [StackCorr_length hsc2]; omega) hb2 hsc2 hgx
        rw [hstk] at hdrain
        dsimp only
        rw [hdrain]
        simp only [Option.bind_eq_bind, Option.some_bind]
        exact ⟨st3, rfl, by rw [hlen3, hlen0]⟩

end TrialGraph

namespace TrialGraph

/-- C4 witness: the spec's three-record scenario is a valid preorder, and on
it the NoMatch traversal succeeds with exactly 3 nodes. -/
theorem C4_witness :
    validPre c1input = true ∧
    ∃ st, nmCall c1input = some st ∧ st.s.nodes.length = c1input.length :=
  ⟨by decide, C4_nomatch_counts (by decide)⟩

end TrialGraph

namespace TrialGraph

/-- C10 (amended): on the single-root input the rebuild walk does reach the
root, and each child's sibling position is the count increment: the `call`
edge to the first child carries count 0 for its trial, the one to the second
child carries count 1. -/
theorem C10_amended :
    ((treeRun c10ok).map fun st => (st.nodes.get? 0).map fun n => n.children) =
      some (some [1, 2]) ∧
    ((treeRun c10ok).map fun st => edgeEntry st.edges 0 1 "call") =
      some (some [(1, 0)]) ∧
    ((treeRun c10ok).map fun st => edgeEntry st.edges 0 2 "call") =
      some (some [(1, 1)]) ∧
    ((treeRun c10ok).map fun st => st.edges.length) = some 1 := by
  refine ⟨?_, ?_, ?_, ?_⟩ <;> decide

end TrialGraph
